import Mathlib

/-!
Shallow embedding of the release planner and state writer of the `versio`
monorepo version-management tool (sources `src/config.rs` and `src/state.rs`),
together with theorems settling the specification claims about it.

Conventions of the embedding:
* Rust `HashMap`s that are only read pointwise are modelled as Lean functions
  into `Option`; `HashMap`s whose entry set matters are modelled as association
  lists (first matching key wins, mirroring `HashMap::get`).
* Rust `u32` arithmetic is modelled as `Nat` arithmetic reduced `% 2 ^ 32`
  (the wrapping behaviour of release builds); `str::parse::<u32>` rejects
  values of `2 ^ 32` or more, exactly as in Rust.
* Fallible Rust functions returning `Result<T>` are modelled as
  `Except Unit T`; the text of the error messages is not modelled.
* Strings are manipulated through their character lists so that every
  definition reduces inside the kernel.
-/

namespace Versio

/-! ## The `Size` lattice (`config.rs`, `enum Size` and its `Ord` instance) -/

/-- The increment sizes of `config.rs`: `Fail > Major > Minor > Patch > None`. -/
inductive Size where
  | fail
  | major
  | minor
  | patch
  | none
deriving DecidableEq, Repr

/-- `Ord for Size` from `config.rs`, written out match-for-match. -/
def Size.cmp : Size → Size → Ordering
  | .fail, .fail => .eq
  | .fail, _ => .gt
  | .major, .fail => .lt
  | .major, .major => .eq
  | .major, _ => .gt
  | .minor, .major => .lt
  | .minor, .fail => .lt
  | .minor, .minor => .eq
  | .minor, _ => .gt
  | .patch, .none => .gt
  | .patch, .patch => .eq
  | .patch, _ => .lt
  | .none, .none => .eq
  | .none, _ => .lt

/-- `std::cmp::max` specialised to `Size`: returns the second argument
when the two compare equal. -/
def Size.max (a b : Size) : Size := if Size.cmp b a = .lt then a else b

/-- Numeric height of a size in the `Fail > Major > Minor > Patch > None`
chain, used to reason about `Size.cmp` arithmetically. -/
def Size.toNat : Size → Nat
  | .none => 0
  | .patch => 1
  | .minor => 2
  | .major => 3
  | .fail => 4

/-- `a` is at most `b` in the size order. -/
def Size.le (a b : Size) : Prop := Size.toNat a ≤ Size.toNat b

instance : DecidablePred (fun p : Size × Size => Size.le p.1 p.2) := by
  intro p; unfold Size.le; infer_instance

instance (a b : Size) : Decidable (Size.le a b) := by
  unfold Size.le; infer_instance

theorem Size.cmp_eq_compare (a b : Size) :
    Size.cmp a b = compare (Size.toNat a) (Size.toNat b) := by
  cases a <;> cases b <;> decide

theorem Size.max_eq (a b : Size) :
    Size.max a b = if Size.toNat b < Size.toNat a then a else b := by
  cases a <;> cases b <;> rfl

theorem Size.le_refl (a : Size) : Size.le a a := Nat.le_refl _

theorem Size.le_trans {a b c : Size} (h₁ : Size.le a b) (h₂ : Size.le b c) :
    Size.le a c := Nat.le_trans h₁ h₂

theorem Size.le_max_left (a b : Size) : Size.le a (Size.max a b) := by
  cases a <;> cases b <;> decide

theorem Size.le_max_right (a b : Size) : Size.le b (Size.max a b) := by
  cases a <;> cases b <;> decide

theorem Size.max_le {a b c : Size} (h₁ : Size.le a c) (h₂ : Size.le b c) :
    Size.le (Size.max a b) c := by
  rw [Size.max_eq]; split <;> assumption

theorem Size.max_idem (a : Size) : Size.max a a = a := by cases a <;> rfl

theorem Size.le_of_max_eq {a b : Size} (h : Size.max a b = b) : Size.le a b := by
  revert h; cases a <;> cases b <;> decide

theorem Size.toNat_le_iff {a b : Size} : Size.toNat a ≤ Size.toNat b ↔ Size.le a b :=
  Iff.rfl

/-! ## Dotted-triple versions (`config.rs`, `Size::parts`, `Size::less_than`,
`Size::apply`) -/

/-- Splitting a character list at `.` separators, the behaviour of Rust's
`str::split('.')`: `n` separators yield `n + 1` (possibly empty) pieces. -/
def splitDots : List Char → List (List Char)
  | [] => [[]]
  | c :: cs =>
    if c = '.' then [] :: splitDots cs
    else
      match splitDots cs with
      | [] => [[c]]
      | p :: ps => (c :: p) :: ps

/-- Numeric value of a digit list. -/
def digitsVal (l : List Char) : Nat := l.foldl (fun a c => a * 10 + (c.toNat - 48)) 0

/-- Rust's `str::parse::<u32>`: an optional leading `+`, then one or more
ASCII digits, rejecting values that do not fit in 32 bits. -/
def parseU32 (l : List Char) : Option Nat :=
  let l' := if l.head? = some '+' then l.tail else l
  if l' = [] then Option.none
  else if l'.all (fun c => c.isDigit) then
    let n := digitsVal l'
    if n < 2 ^ 32 then some n else Option.none
  else Option.none

/-- `Size::parts`: split the version on `.`, parse every component as `u32`,
and demand exactly three components. -/
def Size.parts (v : String) : Except Unit (Nat × Nat × Nat) :=
  match (splitDots v.data).mapM parseU32 with
  | Option.none => .error ()
  | some ps =>
    match ps with
    | [a, b, c] => .ok (a, b, c)
    | _ => .error ()

/-- Fuel-indexed most-significant-digit-first decimal rendering; the fuel is
always at least the value, so the recursion never runs out. -/
def natToCharsGo : Nat → Nat → List Char
  | 0, _ => []
  | fuel + 1, n =>
    if n < 10 then [Nat.digitChar n]
    else natToCharsGo fuel (n / 10) ++ [Nat.digitChar (n % 10)]

/-- The decimal rendering of a `u32`, as produced by Rust's `Display`. -/
def natToChars (n : Nat) : List Char := natToCharsGo (n + 1) n

/-- The decimal rendering `format!("{}.{}.{}", a, b, c)`. -/
def fmtVer (a b c : Nat) : String :=
  String.mk (natToChars a ++ '.' :: natToChars b ++ '.' :: natToChars c)

/-- `Size::less_than`: lexicographic comparison of the parsed triples. -/
def Size.lessThan (v1 v2 : String) : Except Unit Bool := do
  let p1 ← Size.parts v1
  let p2 ← Size.parts v2
  pure (p1.1 < p2.1 || (p1.1 = p2.1 && (p1.2.1 < p2.2.1 ||
    (p1.2.1 = p2.2.1 && p1.2.2 < p2.2.2))))

/-- `Size::apply`: increment the component selected by the size and zero the
lower ones; `u32` addition wraps modulo `2 ^ 32`. -/
def Size.apply (s : Size) (v : String) : Except Unit String := do
  let parts ← Size.parts v
  match s with
  | .major => pure (fmtVer ((parts.1 + 1) % 2 ^ 32) 0 0)
  | .minor => pure (fmtVer parts.1 ((parts.2.1 + 1) % 2 ^ 32) 0)
  | .patch => pure (fmtVer parts.1 parts.2.1 ((parts.2.2 + 1) % 2 ^ 32))
  | .none => pure (fmtVer parts.1 parts.2.1 parts.2.2)
  | .fail => .error ()

theorem digitsVal_append_singleton (l : List Char) (c : Char) :
    digitsVal (l ++ [c]) = digitsVal l * 10 + (c.toNat - 48) := by
  simp [digitsVal, List.foldl_append]

theorem digitChar_isDigit {d : Nat} (h : d < 10) : (Nat.digitChar d).isDigit = true := by
  interval_cases d <;> decide

theorem digitChar_val {d : Nat} (h : d < 10) : (Nat.digitChar d).toNat - 48 = d := by
  interval_cases d <;> decide

theorem natToCharsGo_spec : ∀ fuel n, n < fuel →
    (natToCharsGo fuel n).all (fun c => c.isDigit) = true ∧
    natToCharsGo fuel n ≠ [] ∧
    digitsVal (natToCharsGo fuel n) = n := by
  intro fuel
  induction fuel with
  | zero => intro n h; exact absurd h (Nat.not_lt_zero n)
  | succ fuel ih =>
    intro n h
    by_cases h10 : n < 10
    · refine ⟨?_, ?_, ?_⟩ <;> simp [natToCharsGo, h10, digitsVal]
      · exact digitChar_isDigit h10
      · have := digitChar_val h10; omega
    · have hn : 0 < n := by omega
      have hdiv : n / 10 < fuel := by
        have := Nat.div_lt_self hn (by norm_num : 1 < 10)
        omega
      obtain ⟨hall, hne, hval⟩ := ih (n / 10) hdiv
      have hmod : n % 10 < 10 := Nat.mod_lt _ (by norm_num)
      refine ⟨?_, ?_, ?_⟩
      · simp [natToCharsGo, h10, List.all_append, hall, digitChar_isDigit hmod]
      · simp [natToCharsGo, h10]
      · rw [natToCharsGo, if_neg h10, digitsVal_append_singleton, hval,
          digitChar_val hmod]
        omega

theorem natToChars_spec (n : Nat) :
    (natToChars n).all (fun c => c.isDigit) = true ∧
    natToChars n ≠ [] ∧
    digitsVal (natToChars n) = n :=
  natToCharsGo_spec (n + 1) n (Nat.lt_succ_self n)

theorem natToChars_no_dot (n : Nat) : '.' ∉ natToChars n := by
  intro hmem
  have hall := (natToChars_spec n).1
  rw [List.all_eq_true] at hall
  have := hall _ hmem
  simp [Char.isDigit] at this

theorem parseU32_natToChars {n : Nat} (h : n < 2 ^ 32) :
    parseU32 (natToChars n) = some n := by
  obtain ⟨hall, hne, hval⟩ := natToChars_spec n
  unfold parseU32
  have hhead : (natToChars n).head? ≠ some '+' := by
    match hl : natToChars n with
    | [] => exact absurd hl hne
    | c :: cs =>
      rw [hl] at hall
      have hc : c.isDigit = true := by
        rw [List.all_eq_true] at hall; exact hall c (by simp)
      simp only [List.head?]
      intro he
      rw [Option.some_inj] at he
      rw [he] at hc
      simp [Char.isDigit] at hc
  simp only [if_neg hhead]
  rw [if_neg hne, if_pos hall, hval, if_pos h]

theorem splitDots_ne_nil (l : List Char) : splitDots l ≠ [] := by
  cases l with
  | nil => simp [splitDots]
  | cons c cs =>
    by_cases h : c = '.'
    · simp [splitDots, h]
    · simp only [splitDots, if_neg h]
      match splitDots cs with
      | [] => simp
      | p :: ps => simp

theorem splitDots_no_dot {x : List Char} (h : '.' ∉ x) : splitDots x = [x] := by
  induction x with
  | nil => rfl
  | cons c cs ih =>
    have hc : c ≠ '.' := fun he => h (he ▸ List.mem_cons_self c cs)
    have hcs : '.' ∉ cs := fun hm => h (List.mem_cons_of_mem c hm)
    rw [splitDots, if_neg hc, ih hcs]

theorem splitDots_append_dot {x : List Char} (rest : List Char) (h : '.' ∉ x) :
    splitDots (x ++ '.' :: rest) = x :: splitDots rest := by
  induction x with
  | nil => simp [splitDots]
  | cons c cs ih =>
    have hc : c ≠ '.' := fun he => h (he ▸ List.mem_cons_self c cs)
    have hcs : '.' ∉ cs := fun hm => h (List.mem_cons_of_mem c hm)
    rw [List.cons_append, splitDots, if_neg hc, ih hcs]

theorem parts_fmtVer {a b c : Nat} (ha : a < 2 ^ 32) (hb : b < 2 ^ 32)
    (hc : c < 2 ^ 32) : Size.parts (fmtVer a b c) = .ok (a, b, c) := by
  have hdata : (fmtVer a b c).data =
      natToChars a ++ '.' :: (natToChars b ++ '.' :: natToChars c) := by
    simp [fmtVer]
  rw [Size.parts, hdata, splitDots_append_dot _ (natToChars_no_dot a),
    splitDots_append_dot _ (natToChars_no_dot b),
    splitDots_no_dot (natToChars_no_dot c)]
  simp [List.mapM, List.mapM.loop, parseU32_natToChars ha, parseU32_natToChars hb,
    parseU32_natToChars hc]

/-- C5 helper: the explicit result of `Size.apply` on a parsed version. -/
theorem apply_of_parts {v : String} {M m p : Nat}
    (hp : Size.parts v = .ok (M, m, p)) :
    Size.apply Size.major v = .ok (fmtVer ((M + 1) % 2 ^ 32) 0 0) ∧
    Size.apply Size.minor v = .ok (fmtVer M ((m + 1) % 2 ^ 32) 0) ∧
    Size.apply Size.patch v = .ok (fmtVer M m ((p + 1) % 2 ^ 32)) ∧
    Size.apply Size.none v = .ok (fmtVer M m p) ∧
    Size.apply Size.fail v = .error () := by
  refine ⟨?_, ?_, ?_, ?_, ?_⟩ <;> simp [Size.apply, hp, Bind.bind, Except.bind, pure, Except.pure]

/-- C5 (amended): for a version string `v` whose three `u32` components parse
as `(M, m, p)`, provided `v` is the canonical rendering of its components and
no incremented component overflows `u32`, `apply(None, v) = v`,
`apply(Major, v) = (M+1).0.0`, and `less_than(v, apply(s, v))` holds exactly
for `s` among `Major`, `Minor` and `Patch`; `apply(Fail, v)` is an error. -/
theorem claim_C5 (v : String) (M m p : Nat)
    (hp : Size.parts v = .ok (M, m, p))
    (hcan : fmtVer M m p = v)
    (hM : M + 1 < 2 ^ 32) (hm : m + 1 < 2 ^ 32) (hpp : p + 1 < 2 ^ 32) :
    Size.apply Size.none v = .ok v ∧
    Size.apply Size.major v = .ok (fmtVer (M + 1) 0 0) ∧
    Size.apply Size.minor v = .ok (fmtVer M (m + 1) 0) ∧
    Size.apply Size.patch v = .ok (fmtVer M m (p + 1)) ∧
    (∀ s w, Size.apply s v = .ok w →
      (Size.lessThan v w = .ok true ↔
        s = Size.major ∨ s = Size.minor ∨ s = Size.patch)) ∧
    Size.apply Size.fail v = .error () := by
  obtain ⟨hmaj, hmin, hpat, hnone, hfail⟩ := apply_of_parts hp
  have hMlt : M < 2 ^ 32 := by omega
  have hmlt : m < 2 ^ 32 := by omega
  have hplt : p < 2 ^ 32 := by omega
  have hz : (0 : Nat) < 2 ^ 32 := by norm_num
  rw [Nat.mod_eq_of_lt hM] at hmaj
  rw [Nat.mod_eq_of_lt hm] at hmin
  rw [Nat.mod_eq_of_lt hpp] at hpat
  refine ⟨hcan ▸ hnone, hmaj, hmin, hpat, ?_, hfail⟩
  intro s w hw
  cases s with
  | major =>
    rw [hmaj, Except.ok.injEq] at hw
    subst hw
    rw [Size.lessThan, hp, parts_fmtVer hM hz hz]
    simp [Bind.bind, Except.bind, pure, Except.pure, Nat.lt_succ_self]
  | minor =>
    rw [hmin, Except.ok.injEq] at hw
    subst hw
    rw [Size.lessThan, hp, parts_fmtVer hMlt hm hz]
    simp [Bind.bind, Except.bind, pure, Except.pure, Nat.lt_succ_self]
  | patch =>
    rw [hpat, Except.ok.injEq] at hw
    subst hw
    rw [Size.lessThan, hp, parts_fmtVer hMlt hmlt hpp]
    simp [Bind.bind, Except.bind, pure, Except.pure, Nat.lt_succ_self]
  | none =>
    rw [hnone, Except.ok.injEq] at hw
    subst hw
    rw [Size.lessThan, hp, parts_fmtVer hMlt hmlt hplt]
    simp [Bind.bind, Except.bind, pure, Except.pure]
  | fail =>
    rw [hfail] at hw
    exact absurd hw (by simp)

/-! ## Projects and the manifest (`config.rs`, `struct Project`,
`struct ConfigFile`) -/

/-- A manifest project. The `located` field of the source (the opaque picker
machinery, an external collaborator) is not part of the embedding; every other
field is carried verbatim. -/
structure Project where
  name : String
  id : Nat
  root : Option String
  includes : List String
  excludes : List String
  depends : List Nat
  changeLog : Option String
  tagPref : Option String
deriving DecidableEq, Repr

/-- `PathBuf::from(root).join(pat)`: an absolute `pat` replaces the root, an
empty root contributes nothing, otherwise the two are joined with `/`. -/
def joinPath (root pat : String) : String :=
  if pat.data.head? = some '/' then pat
  else if root.data = [] then pat
  else String.mk (root.data ++ '/' :: pat.data)

/-- `Project::rooted_pattern`. -/
def Project.rootedPattern (proj : Project) (pat : String) : String :=
  match proj.root with
  | some root => joinPath root pat
  | Option.none => pat

/-! ### `Project::size` (C8) -/

/-- Rust's `str::trim` on the character list (ASCII whitespace; the exotic
Unicode whitespace stripped by Rust does not occur in commit kinds). -/
def trimChars (l : List Char) : List Char :=
  ((l.dropWhile Char.isWhitespace).reverse.dropWhile Char.isWhitespace).reverse

/-- `str::trim` lifted back to `String`. -/
def strTrim (s : String) : String := String.mk (trimChars s.data)

/-- `Project::size`: a trimmed kind ending in `!` forces `Major`; otherwise
the kind is looked up in the manifest `sizes` map with `*` as fallback, and
an unknown kind is an error. -/
def Project.size (parentSizes : String → Option Size) (kind : String) :
    Except Unit Size :=
  let kind := strTrim kind
  if kind.data.getLast? = some '!' then .ok Size.major
  else
    match parentSizes kind with
    | some s => .ok s
    | Option.none =>
      match parentSizes "*" with
      | some s => .ok s
      | Option.none => .error ()

/-- C8: `Project::size` returns `Major` exactly on a trimmed kind ending in
`!`; otherwise it returns the mapped size of the trimmed kind, else the size
mapped by `*`, and errors exactly when neither is mapped. -/
theorem claim_C8 (sizes : String → Option Size) (kind : String) :
    ((strTrim kind).data.getLast? = some '!' →
      Project.size sizes kind = .ok Size.major) ∧
    (∀ s, (strTrim kind).data.getLast? ≠ some '!' →
      sizes (strTrim kind) = some s → Project.size sizes kind = .ok s) ∧
    (∀ s, (strTrim kind).data.getLast? ≠ some '!' →
      sizes (strTrim kind) = Option.none → sizes "*" = some s →
      Project.size sizes kind = .ok s) ∧
    (Project.size sizes kind = .error () ↔
      ((strTrim kind).data.getLast? ≠ some '!' ∧
        sizes (strTrim kind) = Option.none ∧ sizes "*" = Option.none)) := by
  refine ⟨?_, ?_, ?_, ?_⟩
  · intro hbang; simp [Project.size, hbang]
  · intro s hbang hk; simp [Project.size, hbang, hk]
  · intro s hbang hk hstar; simp [Project.size, hbang, hk, hstar]
  · constructor
    · intro herr
      rw [Project.size] at herr
      split at herr
      · exact absurd herr (by simp)
      · rename_i hbang
        refine ⟨hbang, ?_⟩
        split at herr
        · exact absurd herr (by simp)
        · rename_i hk
          split at herr
          · exact absurd herr (by simp)
          · rename_i hstar; exact ⟨hk, hstar⟩
    · rintro ⟨hbang, hk, hstar⟩
      simp [Project.size, hbang, hk, hstar]

/-- The concrete `sizes` map used to witness C8. -/
def sizesEx : String → Option Size :=
  fun k => if k = "feat" then some Size.minor else Option.none

/-- C8 (witness): the theorem applied at the breaking kind `fix!`, the mapped
kind `feat` and the unmapped kind `chore` under `sizesEx`. -/
theorem claim_C8_witness :
    Project.size sizesEx "fix!" = .ok Size.major ∧
    Project.size sizesEx "feat" = .ok Size.minor ∧
    Project.size sizesEx "chore" = .error () :=
  ⟨(claim_C8 sizesEx "fix!").1 (by decide),
   (claim_C8 sizesEx "feat").2.1 Size.minor (by decide) (by decide),
   (claim_C8 sizesEx "chore").2.2.2.2 ⟨by decide, by decide, by decide⟩⟩

/-! ### `Project::does_cover` (C7)

The glob matcher of the `glob` crate is an external collaborator; it is
abstracted as a compilation validity predicate `pvalid` (`Pattern::new`
succeeding) and a match predicate `pm` (`Pattern::matches_with` under
`match_opts()`, i.e. with literal path separators required). -/

/-- The body of the two `try_fold`s of `Project::does_cover`: `val ||`
shortcuts, so a pattern is only compiled (and can only fail) while no earlier
pattern has matched. -/
def globStep (pm : String → String → Bool) (pvalid : String → Bool)
    (proj : Project) (path : String) (val : Bool) (cov : String) :
    Except Unit Bool :=
  if val then pure true
  else if pvalid (proj.rootedPattern cov) then
    pure (pm (proj.rootedPattern cov) path)
  else .error ()

/-- One `try_fold` of `Project::does_cover` over a pattern list. -/
def globFold (pm : String → String → Bool) (pvalid : String → Bool)
    (proj : Project) (path : String) (pats : List String) : Except Unit Bool :=
  pats.foldlM (globStep pm pvalid proj path) false

/-- `Project::does_cover`: excluded paths are never covered; otherwise at
least one include must match. -/
def Project.doesCover (pm : String → String → Bool) (pvalid : String → Bool)
    (proj : Project) (path : String) : Except Unit Bool := do
  let excludes ← globFold pm pvalid proj path proj.excludes
  if excludes then pure false
  else globFold pm pvalid proj path proj.includes

theorem globFold_ok (pm : String → String → Bool) (pvalid : String → Bool)
    (proj : Project) (path : String) :
    ∀ (pats : List String) (acc : Bool),
      (∀ pat ∈ pats, pvalid (proj.rootedPattern pat) = true) →
      pats.foldlM (globStep pm pvalid proj path) acc =
        Except.ok (acc || pats.any (fun p => pm (proj.rootedPattern p) path)) := by
  intro pats
  induction pats with
  | nil => intro acc _; simp; rfl
  | cons c cs ih =>
    intro acc hvalid
    have hc : pvalid (proj.rootedPattern c) = true :=
      hvalid c (List.mem_cons_self c cs)
    have hcs : ∀ pat ∈ cs, pvalid (proj.rootedPattern pat) = true :=
      fun pat hp => hvalid pat (List.mem_cons_of_mem c hp)
    rw [List.foldlM_cons]
    cases acc with
    | true =>
      rw [show globStep pm pvalid proj path true c = pure true from rfl]
      rw [show ((pure true : Except Unit Bool) >>= fun b =>
        List.foldlM (globStep pm pvalid proj path) b cs) =
        List.foldlM (globStep pm pvalid proj path) true cs from rfl]
      rw [ih true hcs]
      simp
    | false =>
      rw [show globStep pm pvalid proj path false c =
        pure (pm (proj.rootedPattern c) path) from by
          rw [globStep, if_neg (by simp), if_pos hc]]
      rw [show ((pure (pm (proj.rootedPattern c) path) : Except Unit Bool) >>=
        fun b => List.foldlM (globStep pm pvalid proj path) b cs) =
        List.foldlM (globStep pm pvalid proj path)
          (pm (proj.rootedPattern c) path) cs from rfl]
      cases hm : pm (proj.rootedPattern c) path with
      | true =>
        rw [ih true hcs]
        simp [List.any_cons, hm]
      | false =>
        rw [ih false hcs]
        simp [List.any_cons, hm]

/-- C7: provided every rooted pattern of the project compiles, `does_cover`
returns `true` exactly when no exclude pattern matches the path and some
include pattern does; in particular any matching exclude forces `false`
regardless of the includes, and an empty include list yields `false`. -/
theorem claim_C7 (pm : String → String → Bool) (pvalid : String → Bool)
    (proj : Project) (path : String)
    (hvalid : ∀ pat ∈ proj.excludes ++ proj.includes,
      pvalid (proj.rootedPattern pat) = true) :
    proj.doesCover pm pvalid path =
      .ok (proj.excludes.all (fun e => !(pm (proj.rootedPattern e) path)) &&
        proj.includes.any (fun i => pm (proj.rootedPattern i) path)) := by
  have hexc : ∀ pat ∈ proj.excludes, pvalid (proj.rootedPattern pat) = true :=
    fun pat hp => hvalid pat (List.mem_append_left _ hp)
  have hinc : ∀ pat ∈ proj.includes, pvalid (proj.rootedPattern pat) = true :=
    fun pat hp => hvalid pat (List.mem_append_right _ hp)
  rw [Project.doesCover, globFold, globFold_ok pm pvalid proj path _ false hexc]
  rw [show ((Except.ok (false || proj.excludes.any
      (fun p => pm (proj.rootedPattern p) path)) : Except Unit Bool) >>= fun b =>
      if b then pure false else globFold pm pvalid proj path proj.includes) =
    (if (false || proj.excludes.any (fun p => pm (proj.rootedPattern p) path))
      then pure false else globFold pm pvalid proj path proj.includes) from rfl]
  by_cases hany : proj.excludes.any (fun p => pm (proj.rootedPattern p) path) = true
  · rw [Bool.false_or, if_pos hany]
    have : proj.excludes.all (fun e => !(pm (proj.rootedPattern e) path)) = false := by
      rw [List.any_eq_true] at hany
      obtain ⟨e, he, hme⟩ := hany
      rw [List.all_eq_false]
      exact ⟨e, he, by simp [hme]⟩
    rw [this, Bool.false_and]
    rfl
  · rw [Bool.false_or, if_neg hany, globFold, globFold_ok pm pvalid proj path _ false hinc]
    have : proj.excludes.all (fun e => !(pm (proj.rootedPattern e) path)) = true := by
      rw [Bool.not_eq_true, List.any_eq_false] at hany
      rw [List.all_eq_true]
      exact fun e he => by simp [hany e he]
    rw [this, Bool.true_and, Bool.false_or]

/-- The concrete project used to witness C7. -/
def projEx : Project :=
  { name := "test", id := 1, root := some "base", includes := ["inc"],
    excludes := ["exc"], depends := [], changeLog := Option.none,
    tagPref := Option.none }

/-- C7 (witness): the theorem applied to `projEx` with a matcher that matches
only the rooted include pattern. -/
theorem claim_C7_witness :
    projEx.doesCover (fun pat _ => pat = "base/inc") (fun _ => true) "base/x" =
      .ok true :=
  (claim_C7 (fun pat _ => pat = "base/inc") (fun _ => true) projEx "base/x"
    (by decide)).trans rfl

/-- C5 (counterexample): the claim as stated fails on the code.
`"01.2.3"` parses as the three unsigned components `(1, 2, 3)`, yet
`apply(None, "01.2.3")` re-renders the components and returns `"1.2.3"`,
not the input unchanged; and at the `u32` upper bound the incremented
major component of `apply(Major, ·)` wraps, so the result is not
`(M+1).0.0` and `less_than(v, apply(Major, v))` is false. -/
theorem claim_C5_counterexample :
    Size.parts "01.2.3" = .ok (1, 2, 3) ∧
    Size.apply Size.none "01.2.3" = .ok "1.2.3" ∧
    ("1.2.3" : String) ≠ "01.2.3" ∧
    Size.parts "4294967295.0.0" = .ok (4294967295, 0, 0) ∧
    Size.apply Size.major "4294967295.0.0" = .ok "0.0.0" ∧
    Size.lessThan "4294967295.0.0" "0.0.0" = .ok false :=
  ⟨rfl, rfl, by decide, rfl, rfl, rfl⟩

/-- C5 (witness): the amended theorem instantiated at `v = "1.2.3"`. -/
theorem claim_C5_witness :
    Size.apply Size.none "1.2.3" = .ok "1.2.3" ∧
    Size.apply Size.major "1.2.3" = .ok (fmtVer 2 0 0) ∧
    Size.apply Size.minor "1.2.3" = .ok (fmtVer 1 3 0) ∧
    Size.apply Size.patch "1.2.3" = .ok (fmtVer 1 2 4) ∧
    (∀ s w, Size.apply s "1.2.3" = .ok w →
      (Size.lessThan "1.2.3" w = .ok true ↔
        s = Size.major ∨ s = Size.minor ∨ s = Size.patch)) ∧
    Size.apply Size.fail "1.2.3" = .error () :=
  claim_C5 "1.2.3" 1 2 3 rfl rfl (by norm_num) (by norm_num) (by norm_num)


/-! ### `legal_tag`, `ConfigFile::validate` and `Project::check_excludes` (C9) -/

/-- `char::is_ascii`. -/
def isAsciiChar (c : Char) : Bool := c.toNat < 128

/-- The per-character test of `legal_tag`: ASCII and `_`, `-` or
alphanumeric. Rust's Unicode `is_alphanumeric` agrees with the ASCII test
under the `is_ascii` conjunct. -/
def legalTagChar (c : Char) : Bool :=
  isAsciiChar c && (c = '_' || c = '-' || c.isAlphanum)

/-- `legal_tag` from `config.rs`: empty, or `_`/alphabetic first character and
every character ASCII alphanumeric, `_` or `-`. Rust's Unicode
`is_alphabetic` on the first character agrees with the ASCII test because the
all-characters conjunct already demands ASCII. -/
def legalTag (pref : String) : Bool :=
  pref.data.isEmpty ||
    ((pref.data.head? = some '_' ||
        (pref.data.head?.map Char.isAlpha).getD false) &&
      pref.data.all legalTagChar)

/-- The manifest. `options.prev_tag` and the `sizes` map are carried for
completeness; `validate` only inspects the projects. -/
structure ConfigFile where
  prevTag : String
  projects : List Project
  sizes : String → Option Size

/-- The project loop of `ConfigFile::validate`, with the three accumulated
`HashSet`s of seen ids, names and tag prefixes. -/
def validateLoop : List Nat → List String → List String → List Project →
    Except Unit Unit
  | _, _, _, [] => .ok ()
  | ids, names, prefs, p :: ps =>
    if p.id ∈ ids then .error ()
    else if p.name ∈ names then .error ()
    else
      match p.tagPref with
      | some pref =>
        if pref ∈ prefs then .error ()
        else if legalTag pref = false then .error ()
        else validateLoop (p.id :: ids) (p.name :: names) (pref :: prefs) ps
      | Option.none => validateLoop (p.id :: ids) (p.name :: names) prefs ps

/-- `ConfigFile::validate` (the body of `ConfigFile::read` after
deserialization): duplicate ids, duplicate names, duplicate tag prefixes and
illegal tag prefixes are rejected.  Note it never consults
`Project::check_excludes`. -/
def ConfigFile.validate (f : ConfigFile) : Except Unit Unit :=
  validateLoop [] [] [] f.projects

/-- `Project::check_excludes`: excludes without includes are an error.  Only
`Project::check` calls this; `ConfigFile::read` does not. -/
def Project.checkExcludes (p : Project) : Except Unit Unit :=
  if !p.excludes.isEmpty && p.includes.isEmpty then .error () else .ok ()

theorem validateLoop_ok : ∀ (ps : List Project) (ids : List Nat)
    (names prefs : List String),
    validateLoop ids names prefs ps = .ok () →
      (ps.map (fun p => p.id)).Nodup ∧ (∀ p ∈ ps, p.id ∉ ids) ∧
      (ps.map (fun p => p.name)).Nodup ∧ (∀ p ∈ ps, p.name ∉ names) ∧
      (ps.filterMap (fun p => p.tagPref)).Nodup ∧
      (∀ p ∈ ps, ∀ pref, p.tagPref = some pref →
        pref ∉ prefs ∧ legalTag pref = true) := by
  intro ps
  induction ps with
  | nil => intro ids names prefs _; simp
  | cons p ps ih =>
    intro ids names prefs h
    rw [validateLoop] at h
    split at h
    · exact absurd h (by simp)
    · rename_i hid
      split at h
      · exact absurd h (by simp)
      · rename_i hname
        split at h
        · rename_i pref hpref
          split at h
          · exact absurd h (by simp)
          · rename_i hprefmem
            split at h
            · exact absurd h (by simp)
            · rename_i hlegal
              obtain ⟨hidn, hidm, hnamen, hnamem, hprefn, hprefm⟩ := ih _ _ _ h
              have hlegal' : legalTag pref = true := by
                cases hx : legalTag pref with
                | true => rfl
                | false => exact absurd hx hlegal
              refine ⟨?_, ?_, ?_, ?_, ?_, ?_⟩
              · rw [List.map_cons, List.nodup_cons]
                exact ⟨fun hm => by
                  obtain ⟨q, hq, hqe⟩ := List.mem_map.mp hm
                  exact (hidm q hq) (hqe ▸ List.mem_cons_self _ _), hidn⟩
              · intro q hq
                rcases List.mem_cons.mp hq with he | hm
                · exact he ▸ hid
                · exact fun hmem => (hidm q hm) (List.mem_cons_of_mem _ hmem)
              · rw [List.map_cons, List.nodup_cons]
                exact ⟨fun hm => by
                  obtain ⟨q, hq, hqe⟩ := List.mem_map.mp hm
                  exact (hnamem q hq) (hqe ▸ List.mem_cons_self _ _), hnamen⟩
              · intro q hq
                rcases List.mem_cons.mp hq with he | hm
                · exact he ▸ hname
                · exact fun hmem => (hnamem q hm) (List.mem_cons_of_mem _ hmem)
              · simp only [List.filterMap_cons, hpref, List.nodup_cons]
                refine ⟨fun hm => ?_, hprefn⟩
                obtain ⟨q, hq, hqe⟩ := List.mem_filterMap.mp hm
                exact ((hprefm q hq pref hqe).1) (List.mem_cons_self _ _)
              · intro q hq pref' hq'
                rcases List.mem_cons.mp hq with he | hm
                · subst he
                  rw [hpref, Option.some_inj] at hq'
                  exact hq' ▸ ⟨hprefmem, hlegal'⟩
                · obtain ⟨hnm, hl⟩ := hprefm q hm pref' hq'
                  exact ⟨fun hmem => hnm (List.mem_cons_of_mem _ hmem), hl⟩
        · rename_i hprefnone
          obtain ⟨hidn, hidm, hnamen, hnamem, hprefn, hprefm⟩ := ih _ _ _ h
          refine ⟨?_, ?_, ?_, ?_, ?_, ?_⟩
          · rw [List.map_cons, List.nodup_cons]
            exact ⟨fun hm => by
              obtain ⟨q, hq, hqe⟩ := List.mem_map.mp hm
              exact (hidm q hq) (hqe ▸ List.mem_cons_self _ _), hidn⟩
          · intro q hq
            rcases List.mem_cons.mp hq with he | hm
            · exact he ▸ hid
            · exact fun hmem => (hidm q hm) (List.mem_cons_of_mem _ hmem)
          · rw [List.map_cons, List.nodup_cons]
            exact ⟨fun hm => by
              obtain ⟨q, hq, hqe⟩ := List.mem_map.mp hm
              exact (hnamem q hq) (hqe ▸ List.mem_cons_self _ _), hnamen⟩
          · intro q hq
            rcases List.mem_cons.mp hq with he | hm
            · exact he ▸ hname
            · exact fun hmem => (hnamem q hm) (List.mem_cons_of_mem _ hmem)
          · simp only [List.filterMap_cons, hprefnone]
            exact hprefn
          · intro q hq pref' hq'
            rcases List.mem_cons.mp hq with he | hm
            · subst he; rw [hprefnone] at hq'; exact absurd hq' (by simp)
            · exact hprefm q hm pref' hq'

/-- C9 (amended): `ConfigFile::read` (modelled past deserialization by
`ConfigFile.validate`) errors whenever the manifest has two projects with the
same id, two with the same name, two with the same `tag_prefix`, or a
`tag_prefix` that is neither empty nor `[A-Za-z_][A-Za-z0-9_-]*`; a project
with non-empty excludes and empty includes is NOT rejected. -/
theorem claim_C9 (f : ConfigFile)
    (hbad : ¬ (f.projects.map (fun p => p.id)).Nodup ∨
      ¬ (f.projects.map (fun p => p.name)).Nodup ∨
      ¬ (f.projects.filterMap (fun p => p.tagPref)).Nodup ∨
      (∃ p ∈ f.projects, ∃ pref, p.tagPref = some pref ∧
        legalTag pref = false)) :
    f.validate = .error () := by
  cases hv : f.validate with
  | error e => cases e; rfl
  | ok u =>
    cases u
    obtain ⟨hidn, _, hnamen, _, hprefn, hprefm⟩ := validateLoop_ok _ _ _ _ hv
    rcases hbad with h | h | h | h
    · exact absurd hidn h
    · exact absurd hnamen h
    · exact absurd hprefn h
    · obtain ⟨p, hp, pref, hpref, hlegal⟩ := h
      have := (hprefm p hp pref hpref).2
      rw [this] at hlegal
      exact absurd hlegal (by simp)

/-- The project of the C9 counterexample: non-empty excludes, empty
includes. -/
def projExcl : Project :=
  { name := "p1", id := 1, root := Option.none, includes := [],
    excludes := ["x"], depends := [], changeLog := Option.none,
    tagPref := Option.none }

/-- The manifest used in the C9 counterexample. -/
def cfgExcl : ConfigFile :=
  { prevTag := "versio-prev", projects := [projExcl],
    sizes := fun _ => Option.none }

/-- C9 (counterexample): a manifest declaring a project with non-empty
excludes but empty includes passes `ConfigFile::validate` (so
`ConfigFile::read` accepts it); the excludes-without-includes error lives
only in `Project::check_excludes`, which `read` never calls. -/
theorem claim_C9_counterexample :
    cfgExcl.validate = .ok () ∧
    (cfgExcl.projects.all (fun p => !p.excludes.isEmpty) = true) ∧
    (cfgExcl.projects.all (fun p => p.includes.isEmpty) = true) ∧
    (cfgExcl.projects.map Project.checkExcludes) = [.error ()] := by
  refine ⟨rfl, rfl, rfl, rfl⟩

/-- The first project of the C9 witness manifest. -/
def projDupA : Project :=
  { name := "p1", id := 1, root := Option.none, includes := ["a"],
    excludes := [], depends := [], changeLog := Option.none,
    tagPref := Option.none }

/-- The second project of the C9 witness manifest, sharing an id with the
first. -/
def projDupB : Project :=
  { name := "p2", id := 1, root := Option.none, includes := ["b"],
    excludes := [], depends := [], changeLog := Option.none,
    tagPref := Option.none }

def cfgDupId : ConfigFile :=
  { prevTag := "versio-prev", projects := [projDupA, projDupB],
    sizes := fun _ => Option.none }

/-- C9 (witness): the amended theorem applied to the duplicate-id manifest. -/
theorem claim_C9_witness : cfgDupId.validate = .error () :=
  claim_C9 cfgDupId (Or.inl (by decide))


/-! ## Change logs and `PlanConsider::sort_and_dedup` (C3, C10)

`sort_by_key` is Rust's stable sort; a stable sort's output is uniquely
determined by the input order and key, so it is modelled by a structural
insertion sort that inserts each element after all earlier elements with a
key not exceeding its own. -/

/-- `SizedPrCommit` from `config.rs`. -/
structure SizedPrCommit where
  oid : String
  message : String
  size : Size
  applies : Bool
  duplicate : Bool
deriving DecidableEq, Repr

/-- `SizedPrCommit::included`. -/
def SizedPrCommit.included (c : SizedPrCommit) : Bool := c.applies && !c.duplicate

/-- `SizedPr` from `config.rs`; `closed_at` timestamps are integers. -/
structure SizedPr where
  number : Nat
  closedAt : Int
  commits : List SizedPrCommit
deriving DecidableEq, Repr

/-- The entry list of a `ChangeLog`. -/
abbrev ChangeLogEntries := List (SizedPr × Size)

/-- Stable insertion after all entries whose `closed_at` does not exceed the
new entry's. -/
def insertByClose (x : SizedPr × Size) : ChangeLogEntries → ChangeLogEntries
  | [] => [x]
  | y :: ys =>
    if y.1.closedAt ≤ x.1.closedAt then y :: insertByClose x ys
    else x :: y :: ys

/-- `entries.sort_by_key(closed_at)`. -/
def sortByClose (l : ChangeLogEntries) : ChangeLogEntries :=
  l.foldl (fun acc x => insertByClose x acc) []

/-- The inner commit loop of `sort_and_dedup`: commits whose oid was already
seen are flagged `duplicate`; every oid is added to the seen set. -/
def markCommits (seen : List String) :
    List SizedPrCommit → List SizedPrCommit × List String
  | [] => ([], seen)
  | c :: cs =>
    let c' := if c.oid ∈ seen then { c with duplicate := true } else c
    let res := markCommits (c.oid :: seen) cs
    (c' :: res.1, res.2)

/-- `Iterator::max` over sizes (`std::cmp::max` keeps the later of equals). -/
def prMax (l : List Size) : Option Size :=
  l.foldl
    (fun acc s =>
      match acc with
      | Option.none => some s
      | some a => some (Size.max a s))
    Option.none

/-- The recomputed entry size: max over included commits, `None` if there is
no included commit. -/
def maxIncludedSize (cs : List SizedPrCommit) : Size :=
  (prMax ((cs.filter (fun c => c.included)).map (fun c => c.size))).getD Size.none

/-- The entry loop of `sort_and_dedup`, threading the seen-oid set through
the (already sorted) entries. -/
def dedupEntries (seen : List String) : ChangeLogEntries → ChangeLogEntries
  | [] => []
  | e :: rest =>
    let res := markCommits seen e.1.commits
    ({ e.1 with commits := res.1 }, maxIncludedSize res.1) ::
      dedupEntries res.2 rest

/-- `PlanConsider::sort_and_dedup` restricted to one project's change log. -/
def sortAndDedup (cl : ChangeLogEntries) : ChangeLogEntries :=
  dedupEntries [] (sortByClose cl)

/-- `PlanConsider::sort_and_dedup` over the whole `incrs` map: only the
change-log component of each entry is touched. -/
def sortAndDedupIncrs
    (incrs : List (Nat × Size × Option String × ChangeLogEntries)) :
    List (Nat × Size × Option String × ChangeLogEntries) :=
  incrs.map (fun e => (e.1, e.2.1, e.2.2.1, sortAndDedup e.2.2.2))

/-- The commits of a change log flattened in entry order. -/
def flatC (l : ChangeLogEntries) : List SizedPrCommit :=
  (l.map (fun e => e.1.commits)).flatten

theorem insertByClose_mem (x : SizedPr × Size) :
    ∀ (l : ChangeLogEntries) (z : SizedPr × Size),
      z ∈ insertByClose x l ↔ z = x ∨ z ∈ l := by
  intro l
  induction l with
  | nil => intro z; simp [insertByClose]
  | cons y ys ih =>
    intro z
    rw [insertByClose]
    split
    · rw [List.mem_cons, ih z, List.mem_cons]
      tauto
    · rw [List.mem_cons]

theorem insertByClose_sorted (x : SizedPr × Size) :
    ∀ l : ChangeLogEntries,
      List.Pairwise (fun a b : SizedPr × Size => a.1.closedAt ≤ b.1.closedAt) l →
      List.Pairwise (fun a b : SizedPr × Size => a.1.closedAt ≤ b.1.closedAt)
        (insertByClose x l) := by
  intro l
  induction l with
  | nil => intro _; simp [insertByClose]
  | cons y ys ih =>
    intro hp
    rw [List.pairwise_cons] at hp
    obtain ⟨hy, hys⟩ := hp
    rw [insertByClose]
    split
    · rename_i hle
      rw [List.pairwise_cons]
      refine ⟨?_, ih hys⟩
      intro z hz
      rcases (insertByClose_mem x ys z).mp hz with he | hm
      · exact he ▸ hle
      · exact hy z hm
    · rename_i hnle
      have hxy : x.1.closedAt ≤ y.1.closedAt := by omega
      rw [List.pairwise_cons]
      refine ⟨?_, List.pairwise_cons.mpr ⟨hy, hys⟩⟩
      intro z hz
      rcases List.mem_cons.mp hz with he | hm
      · exact he ▸ hxy
      · exact le_trans hxy (hy z hm)

theorem sortByClose_sorted_fold :
    ∀ (l : ChangeLogEntries) (acc : ChangeLogEntries),
      List.Pairwise (fun a b : SizedPr × Size => a.1.closedAt ≤ b.1.closedAt) acc →
      List.Pairwise (fun a b : SizedPr × Size => a.1.closedAt ≤ b.1.closedAt)
        (l.foldl (fun acc x => insertByClose x acc) acc) := by
  intro l
  induction l with
  | nil => intro acc h; exact h
  | cons x xs ih =>
    intro acc h
    rw [List.foldl_cons]
    exact ih _ (insertByClose_sorted x acc h)

theorem sortByClose_sorted (l : ChangeLogEntries) :
    List.Pairwise (fun a b : SizedPr × Size => a.1.closedAt ≤ b.1.closedAt)
      (sortByClose l) :=
  sortByClose_sorted_fold l [] (by simp)


theorem markCommits_length (seen : List String) :
    ∀ cs : List SizedPrCommit, (markCommits seen cs).1.length = cs.length := by
  intro cs
  induction cs generalizing seen with
  | nil => rfl
  | cons c cs ih => simp [markCommits, ih]

theorem markCommits_map_oid :
    ∀ (cs : List SizedPrCommit) (seen : List String),
      (markCommits seen cs).1.map (fun c => c.oid) = cs.map (fun c => c.oid) := by
  intro cs
  induction cs with
  | nil => intro seen; rfl
  | cons c cs ih =>
    intro seen
    rw [markCommits]
    simp only [List.map_cons, ih]
    congr 1
    split <;> rfl

theorem markCommits_seen :
    ∀ (cs : List SizedPrCommit) (seen : List String) (o : String),
      o ∈ (markCommits seen cs).2 ↔ o ∈ cs.map (fun c => c.oid) ∨ o ∈ seen := by
  intro cs
  induction cs with
  | nil => intro seen o; simp [markCommits]
  | cons c cs ih =>
    intro seen o
    rw [markCommits]
    simp only []
    rw [ih (c.oid :: seen) o, List.map_cons, List.mem_cons, List.mem_cons]
    tauto

theorem markCommits_not_dup_not_seen :
    ∀ (cs : List SizedPrCommit) (seen : List String),
      ∀ c' ∈ (markCommits seen cs).1, c'.duplicate = false → c'.oid ∉ seen := by
  intro cs
  induction cs with
  | nil => intro seen c' hc' _; simp [markCommits] at hc'
  | cons c cs ih =>
    intro seen c' hc' hdup
    rw [markCommits] at hc'
    simp only [List.mem_cons] at hc'
    rcases hc' with he | hm
    · by_cases hseen : c.oid ∈ seen
      · rw [if_pos hseen] at he
        rw [he] at hdup
        simp at hdup
      · rw [if_neg hseen] at he
        exact he ▸ hseen
    · intro hmem
      exact ih (c.oid :: seen) c' hm hdup (List.mem_cons_of_mem _ hmem)

theorem markCommits_get :
    ∀ (cs : List SizedPrCommit) (seen : List String) (i : Nat)
      (h : i < cs.length) (h2 : i < (markCommits seen cs).1.length),
      (markCommits seen cs).1.get ⟨i, h2⟩ =
        if (cs.get ⟨i, h⟩).oid ∈ (cs.take i).map (fun c => c.oid) ++ seen
        then { cs.get ⟨i, h⟩ with duplicate := true }
        else cs.get ⟨i, h⟩ := by
  intro cs
  induction cs with
  | nil => intro seen i h h2; exact absurd h (Nat.not_lt_zero i)
  | cons c cs ih =>
    intro seen i h h2
    match i with
    | 0 => rfl
    | i + 1 =>
      have h' : i < cs.length := Nat.lt_of_succ_lt_succ h
      have h2' : i < (markCommits (c.oid :: seen) cs).1.length := by
        rw [markCommits_length]; exact h'
      have hcond : (cs.get ⟨i, h'⟩).oid ∈
            (cs.take i).map (fun c => c.oid) ++ (c.oid :: seen) ↔
          (cs.get ⟨i, h'⟩).oid ∈
            ((c :: cs).take (i + 1)).map (fun c => c.oid) ++ seen := by
        rw [List.take_succ_cons, List.map_cons, List.cons_append,
          List.mem_cons, List.mem_append, List.mem_append, List.mem_cons]
        tauto
      exact (ih (c.oid :: seen) i h' h2').trans (if_congr hcond rfl rfl)

theorem markCommits_append :
    ∀ (xs ys : List SizedPrCommit) (seen : List String),
      markCommits seen (xs ++ ys) =
        ((markCommits seen xs).1 ++ (markCommits (markCommits seen xs).2 ys).1,
          (markCommits (markCommits seen xs).2 ys).2) := by
  intro xs
  induction xs with
  | nil => intro ys seen; rfl
  | cons x xs ih =>
    intro ys seen
    rw [List.cons_append, markCommits, markCommits, ih]
    rfl

theorem dedupEntries_meta (seen : List String) :
    ∀ l : ChangeLogEntries,
      (dedupEntries seen l).map (fun e => (e.1.number, e.1.closedAt)) =
        l.map (fun e => (e.1.number, e.1.closedAt)) := by
  intro l
  induction l generalizing seen with
  | nil => rfl
  | cons e rest ih => simp [dedupEntries, ih]

theorem dedupEntries_sizes (seen : List String) :
    ∀ l : ChangeLogEntries,
      ∀ e ∈ dedupEntries seen l, e.2 = maxIncludedSize e.1.commits := by
  intro l
  induction l generalizing seen with
  | nil => intro e he; simp [dedupEntries] at he
  | cons x rest ih =>
    intro e he
    rcases List.mem_cons.mp he with heq | hm
    · rw [heq]
    · exact ih _ e hm

theorem dedupEntries_flat (seen : List String) :
    ∀ l : ChangeLogEntries,
      flatC (dedupEntries seen l) = (markCommits seen (flatC l)).1 := by
  intro l
  induction l generalizing seen with
  | nil => rfl
  | cons e rest ih =>
    show (markCommits seen e.1.commits).1 ++
        flatC (dedupEntries (markCommits seen e.1.commits).2 rest) =
      (markCommits seen (e.1.commits ++ flatC rest)).1
    rw [ih, markCommits_append]

theorem dedupEntries_included_not_seen (seen : List String) :
    ∀ l : ChangeLogEntries, ∀ e ∈ dedupEntries seen l, ∀ c ∈ e.1.commits,
      c.included = true → c.oid ∉ seen := by
  intro l
  induction l generalizing seen with
  | nil => intro e he; simp [dedupEntries] at he
  | cons x rest ih =>
    intro e he c hc hinc
    rcases List.mem_cons.mp he with heq | hm
    · have hc' : c ∈ (markCommits seen x.1.commits).1 := by
        rw [heq] at hc; exact hc
      have hdup : c.duplicate = false := by
        rw [SizedPrCommit.included, Bool.and_eq_true] at hinc
        cases hd : c.duplicate with
        | false => rfl
        | true => rw [hd] at hinc; simp at hinc
      exact markCommits_not_dup_not_seen _ seen c hc' hdup
    · intro hmem
      have hsub : c.oid ∈ (markCommits seen x.1.commits).2 :=
        (markCommits_seen _ seen c.oid).mpr (Or.inr hmem)
      exact ih _ e hm c hc hinc hsub

theorem dedupEntries_cross (seen : List String) :
    ∀ (l : ChangeLogEntries) (i j : Nat) (hi : i < (dedupEntries seen l).length)
      (hj : j < (dedupEntries seen l).length), i < j →
      ∀ c1 ∈ ((dedupEntries seen l).get ⟨i, hi⟩).1.commits,
      ∀ c2 ∈ ((dedupEntries seen l).get ⟨j, hj⟩).1.commits,
        c2.included = true → c1.oid ≠ c2.oid := by
  intro l
  induction l generalizing seen with
  | nil => intro i j hi; simp [dedupEntries] at hi
  | cons x rest ih =>
    intro i j hi hj hij c1 h1 c2 h2 hinc
    match i, j with
    | 0, 0 => exact absurd hij (by omega)
    | 0, j + 1 =>
      have h1' : c1 ∈ (markCommits seen x.1.commits).1 := h1
      have hj' : j < (dedupEntries (markCommits seen x.1.commits).2 rest).length :=
        Nat.lt_of_succ_lt_succ hj
      have h2' : c2 ∈ ((dedupEntries (markCommits seen x.1.commits).2 rest).get
          ⟨j, hj'⟩).1.commits := h2
      have hoid1 : c1.oid ∈ (markCommits seen x.1.commits).2 := by
        have : c1.oid ∈ (markCommits seen x.1.commits).1.map (fun c => c.oid) :=
          List.mem_map.mpr ⟨c1, h1', rfl⟩
        rw [markCommits_map_oid] at this
        exact (markCommits_seen _ seen c1.oid).mpr (Or.inl this)
      have hnot : c2.oid ∉ (markCommits seen x.1.commits).2 :=
        dedupEntries_included_not_seen _ rest _ (List.get_mem _ _ _) c2 h2' hinc
      intro he
      exact hnot (he ▸ hoid1)
    | i + 1, j + 1 =>
      have hi' : i < (dedupEntries (markCommits seen x.1.commits).2 rest).length :=
        Nat.lt_of_succ_lt_succ hi
      have hj' : j < (dedupEntries (markCommits seen x.1.commits).2 rest).length :=
        Nat.lt_of_succ_lt_succ hj
      exact ih _ i j hi' hj' (by omega) c1 h1 c2 h2 hinc


theorem dedupEntries_closedAt (seen : List String) :
    ∀ l : ChangeLogEntries,
      (dedupEntries seen l).map (fun e => e.1.closedAt) =
        l.map (fun e => e.1.closedAt) := by
  intro l
  induction l generalizing seen with
  | nil => rfl
  | cons e rest ih => simp [dedupEntries, ih]

theorem markCommits_seen_marked :
    ∀ (cs : List SizedPrCommit) (seen : List String),
      ∀ c' ∈ (markCommits seen cs).1, c'.oid ∈ seen → c'.duplicate = true := by
  intro cs seen c' hc' hseen
  cases hd : c'.duplicate with
  | true => rfl
  | false => exact absurd hseen (markCommits_not_dup_not_seen cs seen c' hc' hd)

theorem markCommits_dup_decomp :
    ∀ (cs : List SizedPrCommit) (seen : List String)
      (pre : List SizedPrCommit) (c1 : SizedPrCommit) (mid : List SizedPrCommit)
      (c2 : SizedPrCommit) (post : List SizedPrCommit),
      (markCommits seen cs).1 = pre ++ c1 :: mid ++ c2 :: post →
      c1.oid = c2.oid → c2.duplicate = true := by
  intro cs
  induction cs with
  | nil =>
    intro seen pre c1 mid c2 post hdec
    rw [markCommits] at hdec
    exact absurd hdec.symm (by simp)
  | cons c cs ih =>
    intro seen pre c1 mid c2 post hdec hoid
    rw [markCommits] at hdec
    simp only [] at hdec
    match pre, hdec with
    | [], hdec =>
      rw [List.nil_append] at hdec
      have hhead : (if c.oid ∈ seen then { c with duplicate := true } else c) = c1 :=
        (List.cons.injEq .. ▸ hdec).1
      have htail : (markCommits (c.oid :: seen) cs).1 = mid ++ c2 :: post :=
        (List.cons.injEq .. ▸ hdec).2
      have hc2 : c2 ∈ (markCommits (c.oid :: seen) cs).1 := by
        rw [htail]
        exact List.mem_append.mpr (Or.inr (List.mem_cons_self _ _))
      have hc1oid : c1.oid = c.oid := by
        rw [← hhead]
        split <;> rfl
      exact markCommits_seen_marked cs (c.oid :: seen) c2 hc2
        (by rw [← hoid, hc1oid]; exact List.mem_cons_self _ _)
    | p :: pre', hdec =>
      have htail : (markCommits (c.oid :: seen) cs).1 =
          pre' ++ c1 :: mid ++ c2 :: post :=
        (List.cons.injEq .. ▸ hdec).2
      exact ih (c.oid :: seen) pre' c1 mid c2 post htail hoid

theorem markCommits_first_occurrence :
    ∀ (cs : List SizedPrCommit) (seen : List String)
      (pre : List SizedPrCommit) (c : SizedPrCommit) (post : List SizedPrCommit),
      cs = pre ++ c :: post → c.oid ∉ pre.map (fun x => x.oid) → c.oid ∉ seen →
      ∃ pre' post', (markCommits seen cs).1 = pre' ++ c :: post' ∧
        pre'.length = pre.length := by
  intro cs seen pre c post hdec hpre hseen
  subst hdec
  rw [markCommits_append]
  have hnotin : c.oid ∉ (markCommits seen pre).2 := by
    intro hmem
    rcases (markCommits_seen pre seen c.oid).mp hmem with h | h
    · exact hpre h
    · exact hseen h
  refine ⟨(markCommits seen pre).1, (markCommits ((markCommits seen pre).2)
    (c :: post) |>.1).tail, ?_, markCommits_length seen pre⟩
  rw [markCommits]
  simp only [if_neg hnotin]
  rfl

theorem dedupEntries_cross_decomp (seen : List String) :
    ∀ (l : ChangeLogEntries) (pre : ChangeLogEntries) (e1 : SizedPr × Size)
      (mid : ChangeLogEntries) (e2 : SizedPr × Size) (post : ChangeLogEntries),
      dedupEntries seen l = pre ++ e1 :: mid ++ e2 :: post →
      ∀ c1 ∈ e1.1.commits, ∀ c2 ∈ e2.1.commits,
        c2.included = true → c1.oid ≠ c2.oid := by
  intro l
  induction l generalizing seen with
  | nil =>
    intro pre e1 mid e2 post hdec
    rw [dedupEntries] at hdec
    exact absurd hdec.symm (by simp)
  | cons x rest ih =>
    intro pre e1 mid e2 post hdec c1 h1 c2 h2 hinc
    have hdec' : ({ x.1 with commits := (markCommits seen x.1.commits).1 },
          maxIncludedSize (markCommits seen x.1.commits).1) ::
        dedupEntries (markCommits seen x.1.commits).2 rest =
        pre ++ e1 :: mid ++ e2 :: post := hdec
    match pre, hdec' with
    | [], hdec' =>
      rw [List.nil_append] at hdec'
      have hhead : ({ x.1 with commits := (markCommits seen x.1.commits).1 },
          maxIncludedSize (markCommits seen x.1.commits).1) = e1 :=
        (List.cons.injEq .. ▸ hdec').1
      have htail : dedupEntries (markCommits seen x.1.commits).2 rest =
          mid ++ e2 :: post :=
        (List.cons.injEq .. ▸ hdec').2
      have h1' : c1 ∈ (markCommits seen x.1.commits).1 := by
        rw [← hhead] at h1
        exact h1
      have hoid1 : c1.oid ∈ (markCommits seen x.1.commits).2 := by
        have hm : c1.oid ∈ (markCommits seen x.1.commits).1.map (fun c => c.oid) :=
          List.mem_map.mpr ⟨c1, h1', rfl⟩
        rw [markCommits_map_oid] at hm
        exact (markCommits_seen _ seen c1.oid).mpr (Or.inl hm)
      have he2 : e2 ∈ dedupEntries (markCommits seen x.1.commits).2 rest := by
        rw [htail]
        exact List.mem_append.mpr (Or.inr (List.mem_cons_self _ _))
      have hnot : c2.oid ∉ (markCommits seen x.1.commits).2 :=
        dedupEntries_included_not_seen _ rest e2 he2 c2 h2 hinc
      intro he
      exact hnot (he ▸ hoid1)
    | p :: pre', hdec' =>
      have htail : dedupEntries (markCommits seen x.1.commits).2 rest =
          pre' ++ e1 :: mid ++ e2 :: post :=
        (List.cons.injEq .. ▸ hdec').2
      exact ih _ pre' e1 mid e2 post htail c1 h1 c2 h2 hinc

/-- C3: after `sort_and_dedup` the change-log entries are sorted ascending by
PR `closed_at`; in the flattened commit traversal every occurrence of an oid
after its first is marked duplicate (so no oid is included in two entries and
the earliest PR by `closed_at` keeps the commit unchanged), and every entry's
effective size is the maximum size over its included commits, `None` when it
has none. -/
theorem claim_C3 (cl : ChangeLogEntries) :
    List.Pairwise (fun a b : SizedPr × Size => a.1.closedAt ≤ b.1.closedAt)
      (sortAndDedup cl) ∧
    (∀ pre c1 mid c2 post,
      flatC (sortAndDedup cl) = pre ++ c1 :: mid ++ c2 :: post →
      c1.oid = c2.oid → c2.duplicate = true) ∧
    (∀ pre e1 mid e2 post,
      sortAndDedup cl = pre ++ e1 :: mid ++ e2 :: post →
      ∀ c1 ∈ e1.1.commits, ∀ c2 ∈ e2.1.commits,
        c2.included = true → c1.oid ≠ c2.oid) ∧
    (∀ pre c post, flatC (sortByClose cl) = pre ++ c :: post →
      c.oid ∉ pre.map (fun x => x.oid) →
      ∃ pre' post', flatC (sortAndDedup cl) = pre' ++ c :: post' ∧
        pre'.length = pre.length) ∧
    (∀ e ∈ sortAndDedup cl, e.2 = maxIncludedSize e.1.commits) := by
  refine ⟨?_, ?_, ?_, ?_, ?_⟩
  · have h1 := sortByClose_sorted cl
    have h2 : List.Pairwise (fun a b : Int => a ≤ b)
        ((sortByClose cl).map (fun e => e.1.closedAt)) :=
      List.pairwise_map.mpr h1
    rw [← dedupEntries_closedAt ([] : List String) (sortByClose cl)] at h2
    exact List.pairwise_map.mp h2
  · intro pre c1 mid c2 post hdec hoid
    rw [sortAndDedup, dedupEntries_flat] at hdec
    exact markCommits_dup_decomp _ [] pre c1 mid c2 post hdec hoid
  · intro pre e1 mid e2 post hdec
    rw [sortAndDedup] at hdec
    exact dedupEntries_cross_decomp [] (sortByClose cl) pre e1 mid e2 post hdec
  · intro pre c post hdec hpre
    obtain ⟨pre', post', heq, hlen⟩ :=
      markCommits_first_occurrence (flatC (sortByClose cl)) [] pre c post hdec
        hpre (by simp)
    refine ⟨pre', post', ?_, hlen⟩
    rw [sortAndDedup, dedupEntries_flat]
    exact heq
  · intro e he
    exact dedupEntries_sizes [] _ e he

/-- The shared commit of the C3 witness as it appears in the earlier PR. -/
def cO1 : SizedPrCommit :=
  { oid := "O", message := "m1", size := Size.minor,
    applies := true, duplicate := false }

/-- The shared commit of the C3 witness as it appears in the later PR. -/
def cO2 : SizedPrCommit :=
  { oid := "O", message := "m2", size := Size.minor,
    applies := true, duplicate := false }

/-- The later PR's copy of the shared commit after deduplication. -/
def cO2dup : SizedPrCommit :=
  { oid := "O", message := "m2", size := Size.minor,
    applies := true, duplicate := true }

/-- The first PR of the C3 witness change log (closed earlier, carries
commit `O`). -/
def prW1 : SizedPr := { number := 7, closedAt := 1, commits := [cO1] }

/-- The second PR of the C3 witness change log (closed later, also carries
commit `O`). -/
def prW2 : SizedPr := { number := 9, closedAt := 2, commits := [cO2] }

/-- The (unsorted) change log of the C3 witness. -/
def exCl : ChangeLogEntries := [(prW2, Size.minor), (prW1, Size.minor)]

/-- C3 (witness): the theorem applied to `exCl`; the later PR's copy of
commit `O` comes out marked duplicate. -/
theorem claim_C3_witness :
    List.Pairwise (fun a b : SizedPr × Size => a.1.closedAt ≤ b.1.closedAt)
      (sortAndDedup exCl) ∧
    cO2dup.duplicate = true :=
  ⟨(claim_C3 exCl).1,
    (claim_C3 exCl).2.1 [] cO1 [] cO2dup [] (by rfl) rfl⟩

/-- The non-applying copy of commit `X` in the first C10 PR. -/
def cX1 : SizedPrCommit :=
  { oid := "X", message := "mx", size := Size.major,
    applies := false, duplicate := false }

/-- The applying commit `Y` of the first C10 PR. -/
def cY1 : SizedPrCommit :=
  { oid := "Y", message := "my", size := Size.patch,
    applies := true, duplicate := false }

/-- The applying copy of commit `X` in the second C10 PR, the only included
carrier of `Major`. -/
def cX2 : SizedPrCommit :=
  { oid := "X", message := "mx", size := Size.major,
    applies := true, duplicate := false }

/-- The first PR of the C10 example: its copy of commit `X` does not apply,
but commit `Y` makes the PR productive at `Patch`. -/
def prA10 : SizedPr := { number := 1, closedAt := 1, commits := [cX1, cY1] }

/-- The second PR of the C10 example. -/
def prB10 : SizedPr := { number := 2, closedAt := 2, commits := [cX2] }

/-- The C10 example `incrs` map: one project whose planned size is `Major`
(as left by `finish_pr`), whose change log holds the two PRs above. -/
def ex10 : List (Nat × Size × Option String × ChangeLogEntries) :=
  [(1, Size.major, some "L", [(prA10, Size.patch), (prB10, Size.major)])]

theorem claim_C10 :
    (∀ incrs : List (Nat × Size × Option String × ChangeLogEntries),
      (sortAndDedupIncrs incrs).map (fun e => (e.1, e.2.1, e.2.2.1)) =
        incrs.map (fun e => (e.1, e.2.1, e.2.2.1))) ∧
    (sortAndDedupIncrs ex10).map (fun e => e.2.1) = [Size.major] ∧
    (sortAndDedupIncrs ex10).map (fun e => e.2.2.2.map (fun en => en.2)) =
      [[Size.patch, Size.none]] ∧
    prMax [Size.patch, Size.none] = some Size.patch ∧
    Size.toNat Size.patch < Size.toNat Size.major := by
  refine ⟨?_, by rfl, by rfl, rfl, by decide⟩
  intro incrs
  induction incrs with
  | nil => rfl
  | cons e rest ih =>
    simp only [sortAndDedupIncrs, List.map_cons] at ih ⊢
    rw [ih]


/-! ## The prefix-keyed `OldTags` of `config.rs` and `Config::find_old_tags`
(C1)

The tag buckets (`by_prefix_id`, prefix to tagged-oid to tag names) are built
from repository data (`tag_names` and `revparse_id`, both external); the model
takes them as input and embeds the walk loop of `find_old_tags` and the
`OldTags` accessors.  `HashMap`s are association lists. -/

/-- `HashMap::get` on an association list. -/
def alookup {κ β : Type} [DecidableEq κ] (l : List (κ × β)) (k : κ) : Option β :=
  (l.find? (fun e => e.1 = k)).map (fun e => e.2)

/-- `HashMap::insert` (also the write-back of `entry().or_insert()`). -/
def aset {κ β : Type} [DecidableEq κ] : List (κ × β) → κ → β → List (κ × β)
  | [], k, v => [(k, v)]
  | e :: rest, k, v => if e.1 = k then (k, v) :: rest else e :: aset rest k v

/-- `HashMap::remove` (key deletion only; the taken value is read through
`alookup` first). -/
def aremove {κ β : Type} [DecidableEq κ] : List (κ × β) → κ → List (κ × β)
  | [], _ => []
  | e :: rest, k => if e.1 = k then rest else e :: aremove rest k

theorem alookup_nil {κ β : Type} [DecidableEq κ] (k : κ) :
    alookup ([] : List (κ × β)) k = Option.none := rfl

theorem alookup_cons_self {κ β : Type} [DecidableEq κ] (k : κ) (v : β)
    (rest : List (κ × β)) : alookup ((k, v) :: rest) k = some v := by
  simp [alookup, List.find?]

theorem alookup_cons_ne {κ β : Type} [DecidableEq κ] {k k' : κ} (v : β)
    (rest : List (κ × β)) (h : k ≠ k') :
    alookup ((k, v) :: rest) k' = alookup rest k' := by
  simp [alookup, List.find?, h]

theorem alookup_some_mem {κ β : Type} [DecidableEq κ] :
    ∀ (l : List (κ × β)) (k : κ) (v : β), alookup l k = some v → (k, v) ∈ l := by
  intro l
  induction l with
  | nil => intro k v h; exact absurd h (by simp [alookup])
  | cons e rest ih =>
    intro k v h
    by_cases he : e.1 = k
    · rw [show e = (e.1, e.2) from rfl, he, alookup_cons_self] at h
      rw [Option.some_inj] at h
      subst h
      rw [show e = (e.1, e.2) from rfl, he]
      exact List.mem_cons_self _ _
    · rw [show e = (e.1, e.2) from rfl, alookup_cons_ne _ _ he] at h
      exact List.mem_cons_of_mem _ (ih k v h)

theorem alookup_eq_none_of_not_mem_keys {κ β : Type} [DecidableEq κ] :
    ∀ (l : List (κ × β)) (k : κ), k ∉ l.map (fun e => e.1) →
      alookup l k = Option.none := by
  intro l
  induction l with
  | nil => intro k _; rfl
  | cons e rest ih =>
    intro k hk
    rw [List.map_cons, List.mem_cons] at hk
    push_neg at hk
    rw [show e = (e.1, e.2) from rfl,
      alookup_cons_ne _ _ (fun he => hk.1 he.symm)]
    exact ih k hk.2

/-- The prefix-keyed `OldTags` of `config.rs`. -/
structure OldTagsCfg where
  byPref : List (String × List String)
  notAfter : List (String × List (String × Nat))

/-- `OldTags::latest` of `config.rs`. -/
def OldTagsCfg.latest (ot : OldTagsCfg) (pref : String) : Option String :=
  (alookup ot.byPref pref).bind (fun l => l.head?)

/-- `OldTags::not_after` of `config.rs`, written exactly as in the source:
the OUTER lookup uses the boundary oid and the INNER lookup uses the prefix,
although `find_old_tags` builds the map prefix-first.  (The final `Vec`
indexing, which would panic out of bounds, is modelled by an optional get; on
the inputs below the chain already dies at the first lookup.) -/
def OldTagsCfg.notAfterGet (ot : OldTagsCfg) (pref boundry : String) :
    Option String :=
  ((alookup ot.notAfter boundry).bind (fun m => alookup m pref)).bind
    (fun i => ((alookup ot.byPref pref).getD [])[i]?)

/-- Modelled from the spec: the accessor as section 4.1 words it
(`not_after(p, C) = by_proj[p][not_after[p][C]]`), looking up the prefix in
the outer map and the boundary oid in the inner map; used only to compare
against the source accessor. -/
def OldTagsCfg.notAfterSpec (ot : OldTagsCfg) (pref boundry : String) :
    Option String :=
  ((alookup ot.notAfter pref).bind (fun m => alookup m boundry)).bind
    (fun i => ((alookup ot.byPref pref).getD [])[i]?)

/-- The inner loop of the `find_old_tags` walk: one commit oid visits every
`(prefix, bucket)` entry; the commit is pushed onto that prefix's in-progress
walk list, and when the bucket holds tags for the commit they are appended to
`by_prefix[prefix]` and every drained walk commit is recorded in
`not_after[prefix]` at the new first index. -/
def fotEntries (oid : String) :
    List (String × List (String × List String)) →
    List (String × List String) → List (String × List (String × Nat)) →
    List (String × List String) →
    List (String × List (String × List String)) × List (String × List String) ×
      List (String × List (String × Nat)) × List (String × List String)
  | [], byPref, notAfter, walkAcc => ([], byPref, notAfter, walkAcc)
  | (pref, byId) :: rest, byPref, notAfter, walkAcc =>
    let walkAcc1 := aset walkAcc pref (((alookup walkAcc pref).getD []) ++ [oid])
    match alookup byId oid with
    | Option.none =>
      let r := fotEntries oid rest byPref notAfter walkAcc1
      ((pref, byId) :: r.1, r.2)
    | some tags =>
      let byId1 := aremove byId oid
      let old := (alookup byPref pref).getD []
      let bestInd := old.length
      let byPref1 := aset byPref pref (old ++ tags)
      let drained := (alookup walkAcc1 pref).getD []
      let inner := (alookup notAfter pref).getD []
      let inner1 := drained.foldl (fun m o => aset m o bestInd) inner
      let notAfter1 := aset notAfter pref inner1
      let walkAcc2 := aset walkAcc1 pref []
      let r := fotEntries oid rest byPref1 notAfter1 walkAcc2
      ((pref, byId1) :: r.1, r.2)

/-- `Config::find_old_tags`: fold the walk from HEAD back to `prev_tag`
through the per-commit entry loop and package the result. -/
def findOldTags (byPrefixId : List (String × List (String × List String)))
    (walk : List String) : OldTagsCfg :=
  let fin := walk.foldl
    (fun st oid => fotEntries oid st.1 st.2.1 st.2.2.1 st.2.2.2)
    (byPrefixId, [], [], [])
  { byPref := fin.2.1, notAfter := fin.2.2.1 }

/-- The C1 repository: one prefix `proj`, tag `proj-v1.2.3` on commit `B`,
and a walk `HEAD = A, B`. -/
def exTagBuckets : List (String × List (String × List String)) :=
  [("proj", [("B", ["proj-v1.2.3"])])]

/-- The `OldTags` index that `find_old_tags` builds for the C1 repository. -/
def exOt : OldTagsCfg := findOldTags exTagBuckets ["A", "B"]

/-- C1: the walk of `find_old_tags` records `not_after["proj"]["A"] = 0` and
`by_prefix["proj"][0] = "proj-v1.2.3"`, yet the accessor
`not_after("proj", "A")` returns `None` for every walked commit, because it
looks the boundary oid up in the outer map even though the map is keyed by
prefix; the spec-worded accessor applied to the same index returns the
recorded tag. -/
theorem claim_C1 :
    alookup exOt.notAfter "proj" = some [("A", 0), ("B", 0)] ∧
    alookup exOt.byPref "proj" = some ["proj-v1.2.3"] ∧
    exOt.notAfterGet "proj" "A" = Option.none ∧
    exOt.notAfterGet "proj" "B" = Option.none ∧
    exOt.notAfterSpec "proj" "A" = some "proj-v1.2.3" ∧
    exOt.notAfterSpec "proj" "B" = some "proj-v1.2.3" :=
  ⟨rfl, rfl, rfl, rfl, rfl, rfl⟩


/-! ## The project-keyed `OldTags` of `state.rs` and `slice_earlier` (C6) -/

/-- The project-keyed `OldTags` of `state.rs`. -/
structure OldTagsState where
  byProj : List (Nat × List String)
  notAfter : List (Nat × List (String × Nat))

/-- `OldTags::latest` of `state.rs`: the first (most recent) tag of the
project. -/
def OldTagsState.latest (ot : OldTagsState) (proj : Nat) : Option String :=
  (alookup ot.byProj proj).bind (fun l => l.head?)

/-- The two ways `slice_earlier` can fail: the explicit illegal-project error,
and the panic of `list[ind ..]` when the recorded index exceeds the tag list
length. -/
inductive SliceErr where
  | illegalProj
  | panicOob
deriving DecidableEq, Repr

/-- The entry loop of `slice_earlier`: for each project with a `not_after`
record for the boundary oid, drop the tags newer than the recorded index and
rebase the surviving `not_after` indices. -/
def sliceEarlierEntries (byProjAll : List (Nat × List String)) (newOid : String) :
    List (Nat × List (String × Nat)) →
    Except SliceErr
      (List (Nat × List String) × List (Nat × List (String × Nat)))
  | [] => .ok ([], [])
  | (projId, afts) :: rest =>
    match alookup afts newOid with
    | Option.none => sliceEarlierEntries byProjAll newOid rest
    | some ind =>
      match alookup byProjAll projId with
      | Option.none => .error .illegalProj
      | some list =>
        if ind ≤ list.length then
          match sliceEarlierEntries byProjAll newOid rest with
          | .error e => .error e
          | .ok r =>
            .ok ((projId, list.drop ind) :: r.1,
              (projId, afts.filterMap (fun e =>
                if ind ≤ e.2 then some (e.1, e.2 - ind) else Option.none)) ::
                r.2)
        else .error .panicOob

/-- `OldTags::slice_earlier` of `state.rs`. -/
def OldTagsState.sliceEarlier (ot : OldTagsState) (newOid : String) :
    Except SliceErr OldTagsState :=
  (sliceEarlierEntries ot.byProj newOid ot.notAfter).map
    (fun r => { byProj := r.1, notAfter := r.2 })

/-- Well-formedness of an `OldTags` index, as `find_old_tags`-style
construction guarantees: outer keys are distinct (`HashMap`), and every
recorded index points into its project's tag list. -/
def OldTagsState.WF (ot : OldTagsState) : Prop :=
  (ot.notAfter.map (fun e => e.1)).Nodup ∧
  ∀ e ∈ ot.notAfter, ∀ a ∈ e.2,
    ∃ l, alookup ot.byProj e.1 = some l ∧ a.2 < l.length

theorem sliceEarlierEntries_spec (byProjAll : List (Nat × List String))
    (C : String) :
    ∀ ns : List (Nat × List (String × Nat)),
      (∀ e ∈ ns, ∀ a ∈ e.2, ∃ l, alookup byProjAll e.1 = some l ∧
        a.2 < l.length) →
      (ns.map (fun e => e.1)).Nodup →
      ∃ r, sliceEarlierEntries byProjAll C ns = .ok r ∧
        (∀ q aftsQ ind, alookup ns q = some aftsQ → alookup aftsQ C = some ind →
          ∃ l, alookup byProjAll q = some l ∧ alookup r.1 q = some (l.drop ind)) ∧
        (∀ q aftsQ, alookup ns q = some aftsQ → alookup aftsQ C = Option.none →
          alookup r.1 q = Option.none) ∧
        (∀ q, alookup ns q = Option.none → alookup r.1 q = Option.none) := by
  intro ns
  induction ns with
  | nil =>
    intro _ _
    refine ⟨([], []), rfl, ?_, ?_, ?_⟩
    · intro q aftsQ ind hq; exact absurd hq (by simp [alookup])
    · intro q aftsQ hq; exact absurd hq (by simp [alookup])
    · intro q _; rfl
  | cons e rest ih =>
    intro hwf hnodup
    obtain ⟨q0, afts0⟩ := e
    rw [List.map_cons, List.nodup_cons] at hnodup
    obtain ⟨hq0, hnodup'⟩ := hnodup
    have hwf' : ∀ e ∈ rest, ∀ a ∈ e.2, ∃ l, alookup byProjAll e.1 = some l ∧
        a.2 < l.length := fun e he => hwf e (List.mem_cons_of_mem _ he)
    obtain ⟨r, hr, h1, h2, h3⟩ := ih hwf' hnodup'
    have hq0none : alookup rest q0 = Option.none :=
      alookup_eq_none_of_not_mem_keys rest q0 hq0
    cases hc : alookup afts0 C with
    | none =>
      refine ⟨r, ?_, ?_, ?_, ?_⟩
      · rw [sliceEarlierEntries]
        simp only [hc]
        exact hr
      · intro q aftsQ ind hq hind
        by_cases hqe : q = q0
        · subst hqe
          rw [alookup_cons_self] at hq
          rw [Option.some_inj] at hq
          subst hq
          rw [hc] at hind
          exact absurd hind (by simp)
        · rw [alookup_cons_ne _ _ (fun he => hqe he.symm)] at hq
          exact h1 q aftsQ ind hq hind
      · intro q aftsQ hq hnone
        by_cases hqe : q = q0
        · subst hqe
          exact h3 q hq0none
        · rw [alookup_cons_ne _ _ (fun he => hqe he.symm)] at hq
          exact h2 q aftsQ hq hnone
      · intro q hq
        by_cases hqe : q = q0
        · subst hqe
          rw [alookup_cons_self] at hq
          exact absurd hq (by simp)
        · rw [alookup_cons_ne _ _ (fun he => hqe he.symm)] at hq
          exact h3 q hq
    | some ind =>
      have hpair : (C, ind) ∈ afts0 := alookup_some_mem afts0 C ind hc
      obtain ⟨l, hl, hlen⟩ := hwf (q0, afts0) (List.mem_cons_self _ _) (C, ind) hpair
      have hle : ind ≤ l.length := Nat.le_of_lt hlen
      refine ⟨((q0, l.drop ind) :: r.1,
        (q0, afts0.filterMap (fun e =>
          if ind ≤ e.2 then some (e.1, e.2 - ind) else Option.none)) :: r.2),
        ?_, ?_, ?_, ?_⟩
      · rw [sliceEarlierEntries]
        simp only [hc, hl, if_pos hle, hr]
      · intro q aftsQ ind' hq hind
        by_cases hqe : q = q0
        · subst hqe
          rw [alookup_cons_self] at hq
          rw [Option.some_inj] at hq
          subst hq
          rw [hc, Option.some_inj] at hind
          subst hind
          exact ⟨l, hl, alookup_cons_self _ _ _⟩
        · rw [alookup_cons_ne _ _ (fun he => hqe he.symm)] at hq
          obtain ⟨l', hl', hr'⟩ := h1 q aftsQ ind' hq hind
          exact ⟨l', hl', by
            rw [alookup_cons_ne _ _ (fun he => hqe he.symm)]
            exact hr'⟩
      · intro q aftsQ hq hnone
        by_cases hqe : q = q0
        · subst hqe
          rw [alookup_cons_self] at hq
          rw [Option.some_inj] at hq
          subst hq
          rw [hc] at hnone
          exact absurd hnone (by simp)
        · rw [alookup_cons_ne _ _ (fun he => hqe he.symm)] at hq
          rw [alookup_cons_ne _ _ (fun he => hqe he.symm)]
          exact h2 q aftsQ hq hnone
      · intro q hq
        by_cases hqe : q = q0
        · subst hqe
          rw [alookup_cons_self] at hq
          exact absurd hq (by simp)
        · rw [alookup_cons_ne _ _ (fun he => hqe he.symm)] at hq
          rw [alookup_cons_ne _ _ (fun he => hqe he.symm)]
          exact h3 q hq

/-- C6: on a well-formed project-keyed `OldTags`, if `not_after[p]` records
index `i` for commit `C` (a valid index into `by_proj[p]`), then
`slice_earlier(C)` succeeds, the sliced index's `latest(p)` is exactly
`by_proj[p][i]` - the most recent tag of `p` not after `C` - and every
project without a `not_after` record for `C` is absent from the slice
(`latest` returns `None`). -/
theorem claim_C6 (ot : OldTagsState) (C : String) (p : Nat) (i : Nat)
    (aftsP : List (String × Nat))
    (hwf : ot.WF)
    (hp : alookup ot.notAfter p = some aftsP)
    (hc : alookup aftsP C = some i) :
    ∃ ot', ot.sliceEarlier C = .ok ot' ∧
      (∃ l t, alookup ot.byProj p = some l ∧ l[i]? = some t ∧
        ot'.latest p = some t) ∧
      (∀ q aftsQ, alookup ot.notAfter q = some aftsQ →
        alookup aftsQ C = Option.none → ot'.latest q = Option.none) ∧
      (∀ q, alookup ot.notAfter q = Option.none →
        ot'.latest q = Option.none) := by
  obtain ⟨hnodup, hwfi⟩ := hwf
  obtain ⟨r, hr, h1, h2, h3⟩ :=
    sliceEarlierEntries_spec ot.byProj C ot.notAfter hwfi hnodup
  refine ⟨{ byProj := r.1, notAfter := r.2 }, ?_, ?_, ?_, ?_⟩
  · rw [OldTagsState.sliceEarlier, hr]; rfl
  · obtain ⟨l, hl, hrl⟩ := h1 p aftsP i hp hc
    have hpair : (C, i) ∈ aftsP := alookup_some_mem aftsP C i hc
    obtain ⟨l', hl', hlen0⟩ :=
      hwfi (p, aftsP) (alookup_some_mem _ _ _ hp) (C, i) hpair
    rw [hl] at hl'
    rw [Option.some_inj] at hl'
    subst hl'
    have hlen : i < l.length := hlen0
    refine ⟨l, l.get ⟨i, hlen⟩, hl, ?_, ?_⟩
    · rw [List.getElem?_eq_getElem hlen]
      rfl
    · rw [OldTagsState.latest]
      show (alookup r.1 p).bind (fun l => l.head?) = _
      rw [hrl]
      show (l.drop i).head? = _
      rw [List.head?_eq_getElem?, List.getElem?_drop, Nat.add_zero,
        List.getElem?_eq_getElem hlen]
      rfl
  · intro q aftsQ hq hnone
    rw [OldTagsState.latest]
    show (alookup r.1 q).bind (fun l => l.head?) = _
    rw [h2 q aftsQ hq hnone]
    rfl
  · intro q hq
    rw [OldTagsState.latest]
    show (alookup r.1 q).bind (fun l => l.head?) = _
    rw [h3 q hq]
    rfl

/-- The C6 witness index: project 1 has tags `b-v1`, `a-v1` (latest first)
with commit `C1` recorded at index 1, and project 2 has no record for `C1`. -/
def exOts : OldTagsState :=
  { byProj := [(1, ["b-v1", "a-v1"]), (2, ["c-v1"])],
    notAfter := [(1, [("C1", 1), ("H", 0)]), (2, [("H", 0)])] }

/-- C6 (witness): the theorem applied to `exOts` at project 1 and commit
`C1`. -/
theorem claim_C6_witness :
    ∃ ot', exOts.sliceEarlier "C1" = .ok ot' ∧
      (∃ l t, alookup exOts.byProj 1 = some l ∧ l[1]? = some t ∧
        ot'.latest 1 = some t) ∧
      (∀ q aftsQ, alookup exOts.notAfter q = some aftsQ →
        alookup aftsQ "C1" = Option.none → ot'.latest q = Option.none) ∧
      (∀ q, alookup exOts.notAfter q = Option.none →
        ot'.latest q = Option.none) :=
  claim_C6 exOts "C1" 1 1 [("C1", 1), ("H", 0)]
    (by constructor
        · decide
        · intro e he a ha
          fin_cases he <;> fin_cases ha <;> exact ⟨_, rfl, by decide⟩)
    rfl rfl


/-! ## `StateWrite` and its commit transaction (`state.rs`, C2)

The repository operations (`FileWrite::write`, `Repo::commit`,
`Repo::update_tag_head`, `Repo::update_tag`) are external; a `RepoModel`
injects their success or failure, and `commitRun` records the trace of
operations that actually execute.  A failed operation performs nothing and
aborts the remaining steps, exactly as `?` does in the source.  (The source
also clears each buffer after its loop; buffer clearing has no observable
effect on the operation trace and is not modelled.) -/

/-- A buffered file write of `state.rs`: whole-file overwrite or
pick-and-replace update. -/
inductive FileWrite where
  | write (path val : String)
  | update (path val : String)
deriving DecidableEq, Repr

/-- The buffers of `StateWrite`. -/
structure StateWrite where
  writes : List FileWrite
  projWrites : List Nat
  tagHead : List String
  tagCommit : List (String × String)
  tagHeadOrLast : List (String × Nat)

/-- An observable repository operation performed by `StateWrite::commit`. -/
inductive Eff where
  | fileWrite (w : FileWrite)
  | gitCommit
  | tagHeadEff (tag : String)
  | tagAtEff (tag oid : String)
deriving DecidableEq, Repr

/-- Failure injection for the external repository operations. -/
structure RepoModel where
  writeOk : FileWrite → Bool
  commitOk : Bool
  tagHeadOk : String → Bool
  tagAtOk : String → String → Bool

/-- Whether an operation succeeds under the injected behaviour. -/
def effOk (repo : RepoModel) : Eff → Bool
  | .fileWrite w => repo.writeOk w
  | .gitCommit => repo.commitOk
  | .tagHeadEff t => repo.tagHeadOk t
  | .tagAtEff t o => repo.tagAtOk t o

/-- Run a sequence of operations, stopping at the first failure; returns the
trace of performed operations and the success flag. -/
def runEffs (repo : RepoModel) : List Eff → List Eff × Bool
  | [] => ([], true)
  | e :: es =>
    if effOk repo e then
      let r := runEffs repo es
      (e :: r.1, r.2)
    else ([], false)

/-- The `tag_head_or_last` dispatch of `StateWrite::commit`: tag the new HEAD
if the project was written, else tag the project's last-touching commit, else
(unknown project) tag HEAD with a warning. -/
def holEff (sw : StateWrite) (lastCommits : Nat → Option String)
    (tp : String × Nat) : Eff :=
  if tp.2 ∈ sw.projWrites then Eff.tagHeadEff tp.1
  else
    match lastCommits tp.2 with
    | some oid => Eff.tagAtEff tp.1 oid
    | Option.none => Eff.tagHeadEff tp.1

/-- `StateWrite::commit`, phase by phase in source order: buffered file
writes, one Git commit when anything was written, `tag_head` tags,
`tag_head_or_last` tags, `tag_commit` tags, and finally the `prev_tag`
move. -/
def commitRun (repo : RepoModel) (sw : StateWrite) (prevTag : String)
    (lastCommits : Nat → Option String) : List Eff × Bool :=
  let rw := runEffs repo (sw.writes.map Eff.fileWrite)
  if rw.2 = false then rw
  else
    let rc := if sw.writes.isEmpty then (([] : List Eff), true)
      else runEffs repo [Eff.gitCommit]
    if rc.2 = false then (rw.1 ++ rc.1, false)
    else
      let rh := runEffs repo (sw.tagHead.map Eff.tagHeadEff)
      if rh.2 = false then (rw.1 ++ rc.1 ++ rh.1, false)
      else
        let rl := runEffs repo (sw.tagHeadOrLast.map (holEff sw lastCommits))
        if rl.2 = false then (rw.1 ++ rc.1 ++ rh.1 ++ rl.1, false)
        else
          let rt := runEffs repo
            (sw.tagCommit.map (fun e => Eff.tagAtEff e.1 e.2))
          if rt.2 = false then (rw.1 ++ rc.1 ++ rh.1 ++ rl.1 ++ rt.1, false)
          else
            let rp := runEffs repo [Eff.tagHeadEff prevTag]
            (rw.1 ++ rc.1 ++ rh.1 ++ rl.1 ++ rt.1 ++ rp.1, rp.2)

/-- The full operation sequence `StateWrite::commit` performs when nothing
fails, in its fixed order. -/
def fullPlan (sw : StateWrite) (prevTag : String)
    (lastCommits : Nat → Option String) : List Eff :=
  sw.writes.map Eff.fileWrite ++
  (if sw.writes.isEmpty then [] else [Eff.gitCommit]) ++
  sw.tagHead.map Eff.tagHeadEff ++
  sw.tagHeadOrLast.map (holEff sw lastCommits) ++
  sw.tagCommit.map (fun e => Eff.tagAtEff e.1 e.2) ++
  [Eff.tagHeadEff prevTag]

theorem runEffs_eq (repo : RepoModel) :
    ∀ es : List Eff,
      runEffs repo es = (es.takeWhile (effOk repo), es.all (effOk repo)) := by
  intro es
  induction es with
  | nil => rfl
  | cons e es ih =>
    rw [runEffs]
    cases he : effOk repo e with
    | true => simp [he, ih, List.takeWhile_cons, List.all_cons]
    | false => simp [he, List.takeWhile_cons, List.all_cons]

theorem takeWhile_eq_self_of_all {α : Type} (p : α → Bool) :
    ∀ l : List α, l.all p = true → l.takeWhile p = l := by
  intro l
  induction l with
  | nil => intro _; rfl
  | cons a l ih =>
    intro h
    rw [List.all_cons, Bool.and_eq_true] at h
    rw [List.takeWhile_cons, if_pos h.1, ih h.2]

theorem all_of_takeWhile_eq_self {α : Type} (p : α → Bool) :
    ∀ l : List α, l.takeWhile p = l → l.all p = true := by
  intro l
  induction l with
  | nil => intro _; rfl
  | cons a l ih =>
    intro h
    rw [List.takeWhile_cons] at h
    by_cases hp : p a = true
    · rw [if_pos hp] at h
      rw [List.all_cons, hp, Bool.true_and]
      exact ih (List.cons.injEq .. ▸ h).2
    · rw [if_neg hp] at h
      exact absurd (congrArg List.length h) (by simp)

theorem takeWhile_append_of_all {α : Type} (p : α → Bool) :
    ∀ (l₁ l₂ : List α), l₁.all p = true →
      (l₁ ++ l₂).takeWhile p = l₁ ++ l₂.takeWhile p := by
  intro l₁
  induction l₁ with
  | nil => intro l₂ _; rfl
  | cons a l ih =>
    intro l₂ h
    rw [List.all_cons, Bool.and_eq_true] at h
    rw [List.cons_append, List.takeWhile_cons, if_pos h.1, ih l₂ h.2,
      List.cons_append]

theorem takeWhile_append_of_not_all {α : Type} (p : α → Bool) :
    ∀ (l₁ l₂ : List α), l₁.all p = false →
      (l₁ ++ l₂).takeWhile p = l₁.takeWhile p := by
  intro l₁
  induction l₁ with
  | nil => intro l₂ h; exact absurd h (by simp)
  | cons a l ih =>
    intro l₂ h
    rw [List.all_cons] at h
    rw [List.cons_append, List.takeWhile_cons, List.takeWhile_cons]
    by_cases hp : p a = true
    · rw [hp, Bool.true_and] at h
      rw [if_pos hp, if_pos hp, ih l₂ h]
    · rw [if_neg hp, if_neg hp]


theorem takeWhile_append_of_all2 {α : Type} (p : α → Bool) (l₁ l₂ : List α)
    (h : ∀ x ∈ l₁, p x = true) :
    (l₁ ++ l₂).takeWhile p = l₁ ++ l₂.takeWhile p :=
  takeWhile_append_of_all p l₁ l₂ (List.all_eq_true.mpr h)

theorem takeWhile_append_of_not_all2 {α : Type} (p : α → Bool) (l₁ l₂ : List α)
    (h : ∃ x ∈ l₁, ¬ p x = true) :
    (l₁ ++ l₂).takeWhile p = l₁.takeWhile p :=
  takeWhile_append_of_not_all p l₁ l₂ (List.all_eq_false.mpr h)

theorem takeWhile_eq_self2 {α : Type} (p : α → Bool) (l : List α)
    (h : ∀ x ∈ l, p x = true) : l.takeWhile p = l :=
  takeWhile_eq_self_of_all p l (List.all_eq_true.mpr h)

theorem commitRun_eq (repo : RepoModel) (sw : StateWrite) (prevTag : String)
    (lastCommits : Nat → Option String) :
    commitRun repo sw prevTag lastCommits =
      ((fullPlan sw prevTag lastCommits).takeWhile (effOk repo),
        (fullPlan sw prevTag lastCommits).all (effOk repo)) := by
  have hB : (if sw.writes.isEmpty then (([] : List Eff), true)
      else runEffs repo [Eff.gitCommit]) =
      ((if sw.writes.isEmpty then ([] : List Eff)
          else [Eff.gitCommit]).takeWhile (effOk repo),
        (if sw.writes.isEmpty then ([] : List Eff)
          else [Eff.gitCommit]).all (effOk repo)) := by
    by_cases h : sw.writes.isEmpty <;> simp [h, runEffs_eq]
  rw [commitRun, fullPlan, hB]
  simp only [runEffs_eq]
  generalize sw.writes.map Eff.fileWrite = A
  generalize (if sw.writes.isEmpty then ([] : List Eff) else [Eff.gitCommit]) = B
  generalize sw.tagHead.map Eff.tagHeadEff = C
  generalize sw.tagHeadOrLast.map (holEff sw lastCommits) = D
  generalize sw.tagCommit.map (fun e => Eff.tagAtEff e.1 e.2) = E
  generalize [Eff.tagHeadEff prevTag] = F
  cases hA : A.all (effOk repo) <;>
  cases hBb : B.all (effOk repo) <;>
  cases hC : C.all (effOk repo) <;>
  cases hD : D.all (effOk repo) <;>
  cases hE : E.all (effOk repo) <;>
  cases hF : F.all (effOk repo) <;>
    simp [hA, hBb, hC, hD, hE, hF, List.all_append,
      takeWhile_append_of_all, takeWhile_append_of_not_all,
      takeWhile_append_of_all2, takeWhile_append_of_not_all2,
      takeWhile_eq_self_of_all, takeWhile_eq_self2]


/-- C2: `StateWrite::commit` performs its operations in the fixed order of
`fullPlan` - file writes in insertion order, then exactly one Git commit iff
a write was buffered, then `tag_head` tags, then `tag_head_or_last` tags
under their dispatch rule, then `tag_commit` tags, then the `prev_tag` move
last - and any failed operation aborts the remaining steps, so the performed
trace is always a prefix of the plan; in particular a failure during the
file-write phase leaves no Git commit and no tag moved. -/
theorem claim_C2 (repo : RepoModel) (sw : StateWrite) (prevTag : String)
    (lastCommits : Nat → Option String) :
    (commitRun repo sw prevTag lastCommits).1 <+:
      fullPlan sw prevTag lastCommits ∧
    ((commitRun repo sw prevTag lastCommits).2 = true ↔
      (commitRun repo sw prevTag lastCommits).1 =
        fullPlan sw prevTag lastCommits) ∧
    ((commitRun repo sw prevTag lastCommits).2 = true →
      (commitRun repo sw prevTag lastCommits).1.count Eff.gitCommit =
        if sw.writes.isEmpty then 0 else 1) ∧
    ((sw.writes.map Eff.fileWrite).all (effOk repo) = false →
      (commitRun repo sw prevTag lastCommits).2 = false ∧
      ∀ e ∈ (commitRun repo sw prevTag lastCommits).1,
        ∃ w, e = Eff.fileWrite w) ∧
    ((commitRun repo sw prevTag lastCommits).2 = true →
      (commitRun repo sw prevTag lastCommits).1.getLast? =
        some (Eff.tagHeadEff prevTag)) := by
  rw [commitRun_eq]
  refine ⟨?_, ?_, ?_, ?_, ?_⟩
  · exact List.takeWhile_prefix _
  · constructor
    · intro h
      exact takeWhile_eq_self_of_all _ _ h
    · intro h
      exact all_of_takeWhile_eq_self _ _ h
  · intro h
    rw [takeWhile_eq_self_of_all _ _ h, fullPlan]
    have hw : (sw.writes.map Eff.fileWrite).count Eff.gitCommit = 0 :=
      List.count_eq_zero.mpr (fun hm => by
        obtain ⟨w, _, hw⟩ := List.mem_map.mp hm
        exact Eff.noConfusion hw)
    have hh : (sw.tagHead.map Eff.tagHeadEff).count Eff.gitCommit = 0 :=
      List.count_eq_zero.mpr (fun hm => by
        obtain ⟨w, _, hw⟩ := List.mem_map.mp hm
        exact Eff.noConfusion hw)
    have hl : (sw.tagHeadOrLast.map (holEff sw lastCommits)).count
        Eff.gitCommit = 0 :=
      List.count_eq_zero.mpr (fun hm => by
        obtain ⟨w, _, hw⟩ := List.mem_map.mp hm
        rw [holEff] at hw
        split at hw
        · exact Eff.noConfusion hw
        · split at hw <;> exact Eff.noConfusion hw)
    have ht : (sw.tagCommit.map (fun e => Eff.tagAtEff e.1 e.2)).count
        Eff.gitCommit = 0 :=
      List.count_eq_zero.mpr (fun hm => by
        obtain ⟨w, _, hw⟩ := List.mem_map.mp hm
        exact Eff.noConfusion hw)
    by_cases he : sw.writes.isEmpty <;>
      simp [he, List.count_append, hw, hh, hl, ht, List.count_cons,
        List.count_nil]
  · intro h
    constructor
    · show ((fullPlan sw prevTag lastCommits).takeWhile (effOk repo),
        (fullPlan sw prevTag lastCommits).all (effOk repo)).2 = false
      rw [fullPlan]
      simp [List.all_append, h]
    · intro e he
      rw [fullPlan] at he
      simp only [List.append_assoc] at he
      rw [takeWhile_append_of_not_all _ _ _ h] at he
      have hpre : e ∈ sw.writes.map Eff.fileWrite :=
        (List.takeWhile_prefix _).subset he
      obtain ⟨w, _, hw⟩ := List.mem_map.mp hpre
      exact ⟨w, hw.symm⟩
  · intro h
    rw [takeWhile_eq_self_of_all _ _ h, fullPlan]
    rw [List.getLast?_concat]

/-- The `StateWrite` buffers of the C2 witness: one file write for project 1
and one `tag_head_or_last` tag for the unwritten project 2. -/
def swEx : StateWrite :=
  { writes := [FileWrite.write "VERSION" "1.3.0"],
    projWrites := [1],
    tagHead := ["v1.3.0"],
    tagCommit := [],
    tagHeadOrLast := [("w-v2.0.0", 2)] }

/-- A repository model for the C2 witness in which every operation
succeeds. -/
def repoOkEx : RepoModel :=
  { writeOk := fun _ => true, commitOk := true,
    tagHeadOk := fun _ => true, tagAtOk := fun _ _ => true }

/-- A repository model for the C2 witness in which every file write fails. -/
def repoBadWriteEx : RepoModel :=
  { writeOk := fun _ => false, commitOk := true,
    tagHeadOk := fun _ => true, tagAtOk := fun _ _ => true }

/-- C2 (witness): the theorem applied to `swEx` under the all-success
repository (full ordered trace, one Git commit, `prev_tag` last) and under
the failing-write repository (no commit, no tag). -/
theorem claim_C2_witness :
    (commitRun repoOkEx swEx "versio-prev" (fun p =>
        if p = 2 then some "oidL" else Option.none)).1.count Eff.gitCommit = 1 ∧
    (commitRun repoOkEx swEx "versio-prev" (fun p =>
        if p = 2 then some "oidL" else Option.none)).1.getLast? =
      some (Eff.tagHeadEff "versio-prev") ∧
    (commitRun repoBadWriteEx swEx "versio-prev" (fun p =>
        if p = 2 then some "oidL" else Option.none)).2 = false := by
  refine ⟨?_, ?_, ?_⟩
  · have := (claim_C2 repoOkEx swEx "versio-prev" (fun p =>
        if p = 2 then some "oidL" else Option.none)).2.2.1 (by rfl)
    rw [this]
    rfl
  · exact (claim_C2 repoOkEx swEx "versio-prev" (fun p =>
        if p = 2 then some "oidL" else Option.none)).2.2.2.2 (by rfl)
  · exact ((claim_C2 repoBadWriteEx swEx "versio-prev" (fun p =>
        if p = 2 then some "oidL" else Option.none)).2.2.2.1 (by rfl)).1


/-! ## `PlanConsider::consider_deps` (C4)

The modified Kahn walk of `config.rs`.  The `dependents` map
(`HashMap<ProjectId, HashSet<ProjectId>>`) is an association list built in
project order with duplicate-free member lists; `incrs` is reduced to the
size component, a total map with the `or_insert(Size::None)` default.  The
`VecDeque` is a list popped at the head and pushed at the tail. -/

/-- The dependents map: each key holds the set of projects that depend on
it. -/
abbrev Deps := List (Nat × List Nat)

/-- The members of a key's dependents set. -/
def depSet (deps : Deps) (k : Nat) : List Nat := (alookup deps k).getD []

/-- `HashSet::insert` into `dependents.entry(dep).or_insert_with(HashSet::new)`. -/
def addDependent (deps : Deps) (dep : Nat) (depd : Nat) : Deps :=
  match alookup deps dep with
  | Option.none => deps ++ [(dep, [depd])]
  | some s => if depd ∈ s then deps else aset deps dep (s ++ [depd])

/-- The first loop of `consider_deps`: build the dependents map and the
initial queue of dependency-free projects carrying their current sizes. -/
def buildDependents (projects : List Project) : Deps :=
  projects.foldl
    (fun deps p => p.depends.foldl (fun deps dep => addDependent deps dep p.id) deps)
    []

/-- The initial queue: projects with no `depends`, with their current
increment (`Size::None` when absent). -/
def initQueue (projects : List Project) (incrs0 : Nat → Size) :
    List (Nat × Size) :=
  projects.filterMap
    (fun p => if p.depends = [] then some (p.id, incrs0 p.id) else Option.none)

/-- `dependents.get_mut(&id).unwrap().remove(&depd)`: drop one occurrence of
`depd` from the set stored at `id`. -/
def removeEdge (deps : Deps) (id depd : Nat) : Deps :=
  match alookup deps id with
  | Option.none => deps
  | some s => aset deps id (s.erase depd)

/-- `dependents.values().all(|ds| !ds.contains(&depd))`. -/
def noIncoming (deps : Deps) (d : Nat) : Bool := deps.all (fun e => d ∉ e.2)

/-- Total number of stored edges, the termination measure. -/
def totalEdges (deps : Deps) : Nat := (deps.map (fun e => e.2.length)).sum

/-- Update of the total `incrs` size map. -/
def updSize (incrs : Nat → Size) (id : Nat) (v : Size) : Nat → Size :=
  fun x => if x = id then v else incrs x

/-- The inner `for depd in depds` loop of `consider_deps`: remove the edge,
max the dependent's size with the popped size, and enqueue the dependent
with its own updated size once no incoming edges remain. -/
def processDepds (id : Nat) (size : Size) :
    List Nat → Deps → List (Nat × Size) → (Nat → Size) →
    Deps × List (Nat × Size) × (Nat → Size)
  | [], deps, queue, incrs => (deps, queue, incrs)
  | d :: ds, deps, queue, incrs =>
    let deps1 := removeEdge deps id d
    let incrs1 := updSize incrs d (Size.max (incrs d) size)
    let queue1 := if noIncoming deps1 d then queue ++ [(d, incrs1 d)] else queue
    processDepds id size ds deps1 queue1 incrs1


theorem alookup_aset_self {κ β : Type} [DecidableEq κ] :
    ∀ (l : List (κ × β)) (k : κ) (v : β), alookup (aset l k v) k = some v := by
  intro l
  induction l with
  | nil => intro k v; exact alookup_cons_self k v []
  | cons e rest ih =>
    intro k v
    rw [aset]
    by_cases he : e.1 = k
    · rw [if_pos he, alookup_cons_self]
    · rw [if_neg he, show e = (e.1, e.2) from rfl, alookup_cons_ne _ _ he]
      exact ih k v

theorem alookup_aset_ne {κ β : Type} [DecidableEq κ] :
    ∀ (l : List (κ × β)) (k k' : κ) (v : β), k ≠ k' →
      alookup (aset l k v) k' = alookup l k' := by
  intro l
  induction l with
  | nil =>
    intro k k' v hk
    rw [aset, alookup_cons_ne _ _ hk, alookup_nil]
  | cons e rest ih =>
    intro k k' v hk
    rw [aset]
    by_cases he : e.1 = k
    · rw [if_pos he, alookup_cons_ne _ _ hk, show e = (e.1, e.2) from rfl,
        alookup_cons_ne _ _ (he ▸ hk)]
    · rw [if_neg he]
      by_cases he' : e.1 = k'
      · rw [show e = (e.1, e.2) from rfl, he', alookup_cons_self,
          alookup_cons_self]
      · rw [show e = (e.1, e.2) from rfl, alookup_cons_ne _ _ he',
          alookup_cons_ne _ _ he']
        exact ih k k' v hk

theorem keys_aset_of_mem {κ β : Type} [DecidableEq κ] :
    ∀ (l : List (κ × β)) (k : κ) (v : β) (s : β), alookup l k = some s →
      (aset l k v).map (fun e => e.1) = l.map (fun e => e.1) := by
  intro l
  induction l with
  | nil => intro k v s h; exact absurd h (by simp [alookup])
  | cons e rest ih =>
    intro k v s h
    rw [aset]
    by_cases he : e.1 = k
    · rw [if_pos he]
      simp [he]
    · rw [if_neg he]
      rw [show e = (e.1, e.2) from rfl, alookup_cons_ne _ _ he] at h
      simp only [List.map_cons]
      rw [ih k v s h]

theorem totalEdges_aset :
    ∀ (l : Deps) (k : Nat) (v s : List Nat), alookup l k = some s →
      totalEdges (aset l k v) + s.length = totalEdges l + v.length := by
  intro l
  induction l with
  | nil => intro k v s h; exact absurd h (by simp [alookup])
  | cons e rest ih =>
    intro k v s h
    rw [aset]
    by_cases he : e.1 = k
    · rw [if_pos he]
      rw [show e = (e.1, e.2) from rfl, he, alookup_cons_self,
        Option.some_inj] at h
      subst h
      simp [totalEdges]
      omega
    · rw [if_neg he]
      rw [show e = (e.1, e.2) from rfl, alookup_cons_ne _ _ he] at h
      have := ih k v s h
      simp [totalEdges] at this ⊢
      omega

theorem alookup_self_of_mem {κ β : Type} [DecidableEq κ] :
    ∀ (l : List (κ × β)), (l.map (fun e => e.1)).Nodup →
      ∀ e ∈ l, alookup l e.1 = some e.2 := by
  intro l
  induction l with
  | nil => intro _ e he; exact absurd he (by simp)
  | cons x rest ih =>
    intro hk e he
    rw [List.map_cons, List.nodup_cons] at hk
    rcases List.mem_cons.mp he with heq | hm
    · subst heq
      rw [show e = (e.1, e.2) from rfl, alookup_cons_self]
    · have hne : x.1 ≠ e.1 := fun hx =>
        hk.1 (hx ▸ List.mem_map.mpr ⟨e, hm, rfl⟩)
      rw [show x = (x.1, x.2) from rfl, alookup_cons_ne _ _ hne]
      exact ih hk.2 e hm

theorem noIncoming_of_forall (deps : Deps) (d : Nat)
    (hk : (deps.map (fun e => e.1)).Nodup)
    (h : ∀ k s, alookup deps k = some s → d ∉ s) : noIncoming deps d = true := by
  rw [noIncoming, List.all_eq_true]
  intro e he
  simpa using h e.1 e.2 (alookup_self_of_mem deps hk e he)

theorem forall_of_noIncoming (deps : Deps) (d : Nat)
    (h : noIncoming deps d = true) : ∀ k s, alookup deps k = some s → d ∉ s := by
  intro k s hs
  rw [noIncoming, List.all_eq_true] at h
  simpa using h (k, s) (alookup_some_mem deps k s hs)

theorem edges_processDepds (id : Nat) (sz : Size) :
    ∀ (ds : List Nat) (deps : Deps) (q : List (Nat × Size)) (incrs : Nat → Size),
      alookup deps id = some ds →
      totalEdges (processDepds id sz ds deps q incrs).1 + ds.length =
        totalEdges deps := by
  intro ds
  induction ds with
  | nil => intro deps q incrs _; rw [processDepds]; simp
  | cons d tail ih =>
    intro deps q incrs h
    rw [processDepds]
    have hrem : removeEdge deps id d = aset deps id tail := by
      rw [removeEdge, h]
      simp [List.erase_cons_head]
    have hlook : alookup (removeEdge deps id d) id = some tail := by
      rw [hrem]; exact alookup_aset_self _ _ _
    have hedges : totalEdges (removeEdge deps id d) + (d :: tail).length =
        totalEdges deps + tail.length := by
      rw [hrem]
      exact totalEdges_aset deps id tail (d :: tail) h
    have hih := ih (removeEdge deps id d)
      (if noIncoming (removeEdge deps id d) d then
        q ++ [(d, updSize incrs d (Size.max (incrs d) sz) d)] else q)
      (updSize incrs d (Size.max (incrs d) sz)) hlook
    simp only [List.length_cons] at hedges ⊢
    omega

theorem qlen_processDepds (id : Nat) (sz : Size) :
    ∀ (ds : List Nat) (deps : Deps) (q : List (Nat × Size)) (incrs : Nat → Size),
      (processDepds id sz ds deps q incrs).2.1.length ≤ q.length + ds.length := by
  intro ds
  induction ds with
  | nil => intro deps q incrs; rw [processDepds]; simp
  | cons d tail ih =>
    intro deps q incrs
    rw [processDepds]
    have hih := ih (removeEdge deps id d)
      (if noIncoming (removeEdge deps id d) d then
        q ++ [(d, updSize incrs d (Size.max (incrs d) sz) d)] else q)
      (updSize incrs d (Size.max (incrs d) sz))
    cases hni : noIncoming (removeEdge deps id d) d <;>
      simp [hni] at hih ⊢ <;> omega

/-- The `while let Some((id, size)) = queue.pop_front()` loop of
`consider_deps`. -/
def runDeps (deps : Deps) (queue : List (Nat × Size)) (incrs : Nat → Size) :
    Nat → Size :=
  match queue with
  | [] => incrs
  | (id, size) :: rest =>
    let incrs1 := updSize incrs id (Size.max (incrs id) size)
    match h : alookup deps id with
    | Option.none => runDeps deps rest incrs1
    | some ds =>
      let r := processDepds id size ds deps rest incrs1
      runDeps r.1 r.2.1 r.2.2
termination_by 2 * totalEdges deps + queue.length
decreasing_by
  all_goals simp_wf
  all_goals first
  | omega
  | · have h1 := edges_processDepds id size ds deps rest
        (updSize incrs id (Size.max (incrs id) size)) h
      have h2 := qlen_processDepds id size ds deps rest
        (updSize incrs id (Size.max (incrs id) size))
      omega

/-- `PlanConsider::consider_deps`, reduced to the size component of
`incrs`. -/
def considerDeps (projects : List Project) (incrs0 : Nat → Size) : Nat → Size :=
  runDeps (buildDependents projects) (initQueue projects incrs0) incrs0


theorem processDepds_char (id : Nat) (sz : Size) :
    ∀ (ds : List Nat) (deps : Deps) (q : List (Nat × Size)) (incrs : Nat → Size),
      alookup deps id = some ds → ds.Nodup →
      (deps.map (fun e => e.1)).Nodup →
      (processDepds id sz ds deps q incrs).1.map (fun e => e.1) =
          deps.map (fun e => e.1) ∧
      alookup (processDepds id sz ds deps q incrs).1 id = some [] ∧
      (∀ k, k ≠ id → alookup (processDepds id sz ds deps q incrs).1 k =
        alookup deps k) ∧
      (processDepds id sz ds deps q incrs).2.2 =
        (fun x => if x ∈ ds then Size.max (incrs x) sz else incrs x) ∧
      (processDepds id sz ds deps q incrs).2.1 =
        q ++ (ds.filter
            (fun d => noIncoming (processDepds id sz ds deps q incrs).1 d)).map
          (fun d => (d, (processDepds id sz ds deps q incrs).2.2 d)) := by
  intro ds
  induction ds with
  | nil =>
    intro deps q incrs hl _ _
    rw [processDepds]
    refine ⟨rfl, hl, fun _ _ => rfl, ?_, by simp⟩
    funext x
    simp
  | cons d tail ih =>
    intro deps q incrs hl hnodup hkeys
    have hdtail : d ∉ tail := (List.nodup_cons.mp hnodup).1
    have htail : tail.Nodup := (List.nodup_cons.mp hnodup).2
    have hrem : removeEdge deps id d = aset deps id tail := by
      rw [removeEdge, hl]
      simp [List.erase_cons_head]
    have hl1 : alookup (aset deps id tail) id = some tail :=
      alookup_aset_self _ _ _
    have hkeys1 : ((aset deps id tail).map (fun e => e.1)).Nodup := by
      rw [keys_aset_of_mem deps id tail (d :: tail) hl]
      exact hkeys
    rw [processDepds, hrem]
    obtain ⟨ka, kb, kc, kd, ke⟩ := ih (aset deps id tail)
      (if noIncoming (aset deps id tail) d then
        q ++ [(d, updSize incrs d (Size.max (incrs d) sz) d)] else q)
      (updSize incrs d (Size.max (incrs d) sz)) hl1 htail hkeys1
    set r := processDepds id sz tail (aset deps id tail)
      (if noIncoming (aset deps id tail) d then
        q ++ [(d, updSize incrs d (Size.max (incrs d) sz) d)] else q)
      (updSize incrs d (Size.max (incrs d) sz)) with hrdef
    have hkeyset : (aset deps id tail).map (fun e => e.1) =
        deps.map (fun e => e.1) := keys_aset_of_mem deps id tail (d :: tail) hl
    have hni_eq : noIncoming (aset deps id tail) d = noIncoming r.1 d := by
      cases hnr : noIncoming r.1 d with
      | true =>
        apply noIncoming_of_forall _ _ hkeys1
        intro k s hs
        by_cases hk : k = id
        · subst hk
          rw [hl1, Option.some_inj] at hs
          subst hs
          exact hdtail
        · have := forall_of_noIncoming _ _ hnr k s (by rw [kc k hk]; exact hs)
          exact this
      | false =>
        cases hnd : noIncoming (aset deps id tail) d with
        | false => rfl
        | true =>
          exfalso
          have : noIncoming r.1 d = true := by
            apply noIncoming_of_forall _ _ (ka ▸ hkeys1)
            intro k s hs
            by_cases hk : k = id
            · subst hk
              rw [kb, Option.some_inj] at hs
              subst hs
              exact List.not_mem_nil d
            · rw [kc k hk] at hs
              exact forall_of_noIncoming _ _ hnd k s hs
          rw [this] at hnr
          exact Bool.noConfusion hnr
    have hupd_d : r.2.2 d = updSize incrs d (Size.max (incrs d) sz) d := by
      rw [kd]
      simp [hdtail, updSize]
    refine ⟨?_, kb, ?_, ?_, ?_⟩
    · rw [ka, hkeyset]
    · intro k hk
      rw [kc k hk]
      exact alookup_aset_ne deps id k tail (Ne.symm hk)
    · rw [kd]
      funext x
      by_cases hx : x = d
      · subst hx
        simp [hdtail, updSize, List.mem_cons]
      · by_cases hxt : x ∈ tail
        · simp [hxt, List.mem_cons, hx, updSize]
        · simp [hxt, List.mem_cons, hx, updSize]
    · rw [ke, List.filter_cons]
      cases hnr : noIncoming r.1 d with
      | true =>
        have hnd : noIncoming (aset deps id tail) d = true := hni_eq.trans hnr
        simp [hnd, hnr, ← hupd_d, List.append_assoc]
      | false =>
        have hnd : noIncoming (aset deps id tail) d = false := hni_eq.trans hnr
        simp [hnd, hnr]


theorem runDeps_nil (deps : Deps) (incrs : Nat → Size) :
    runDeps deps [] incrs = incrs := by
  rw [runDeps]

theorem runDeps_cons_none (deps : Deps) (id : Nat) (size : Size)
    (rest : List (Nat × Size)) (incrs : Nat → Size)
    (h : alookup deps id = Option.none) :
    runDeps deps ((id, size) :: rest) incrs =
      runDeps deps rest (updSize incrs id (Size.max (incrs id) size)) := by
  rw [runDeps]
  split
  all_goals simp_all

theorem runDeps_cons_some (deps : Deps) (id : Nat) (size : Size)
    (rest : List (Nat × Size)) (incrs : Nat → Size) (ds : List Nat)
    (h : alookup deps id = some ds) :
    runDeps deps ((id, size) :: rest) incrs =
      runDeps
        (processDepds id size ds deps rest
          (updSize incrs id (Size.max (incrs id) size))).1
        (processDepds id size ds deps rest
          (updSize incrs id (Size.max (incrs id) size))).2.1
        (processDepds id size ds deps rest
          (updSize incrs id (Size.max (incrs id) size))).2.2 := by
  rw [runDeps]
  split
  all_goals simp_all

theorem alookup_none_iff {κ β : Type} [DecidableEq κ] :
    ∀ (l : List (κ × β)) (k : κ),
      alookup l k = Option.none ↔ k ∉ l.map (fun e => e.1) := by
  intro l
  induction l with
  | nil => intro k; simp [alookup]
  | cons e rest ih =>
    intro k
    by_cases he : e.1 = k
    · rw [show e = (e.1, e.2) from rfl, he, alookup_cons_self]
      simp
    · rw [show e = (e.1, e.2) from rfl, alookup_cons_ne _ _ he, ih k,
        List.map_cons, List.mem_cons]
      constructor
      · intro h hc
        rcases hc with hc | hc
        · exact he hc.symm
        · exact h hc
      · intro h hc
        exact h (Or.inr hc)

theorem alookup_append {κ β : Type} [DecidableEq κ] :
    ∀ (l1 l2 : List (κ × β)) (k : κ), alookup (l1 ++ l2) k =
      match alookup l1 k with
      | some v => some v
      | Option.none => alookup l2 k := by
  intro l1 l2 k
  induction l1 with
  | nil => rw [alookup_nil, List.nil_append]
  | cons e rest ih =>
    by_cases he : e.1 = k
    · rw [List.cons_append, show e = (e.1, e.2) from rfl, he,
        alookup_cons_self, alookup_cons_self]
    · rw [List.cons_append, show e = (e.1, e.2) from rfl,
        alookup_cons_ne _ _ he, alookup_cons_ne _ _ he, ih]


/-- An edge of the stored dependents map: `d` is recorded as a dependent of
`k`. -/
def edgeIn (deps : Deps) (k d : Nat) : Prop :=
  ∃ s, alookup deps k = some s ∧ d ∈ s

theorem addDependent_keys_nodup (deps : Deps) (dep depd : Nat)
    (hK : (deps.map (fun e => e.1)).Nodup) :
    ((addDependent deps dep depd).map (fun e => e.1)).Nodup := by
  cases hl : alookup deps dep with
  | none =>
    have hdep : dep ∉ deps.map (fun e => e.1) := (alookup_none_iff deps dep).mp hl
    simp only [addDependent, hl, List.map_append, List.map_cons, List.map_nil]
    rw [List.nodup_append]
    exact ⟨hK, List.nodup_singleton _,
      fun a ha hb => hdep ((List.mem_singleton.mp hb) ▸ ha)⟩
  | some s0 =>
    by_cases hmem : depd ∈ s0
    · simp only [addDependent, hl, if_pos hmem]
      exact hK
    · simp only [addDependent, hl, if_neg hmem]
      rw [keys_aset_of_mem deps dep _ s0 hl]
      exact hK

theorem addDependent_entries_nodup (deps : Deps) (dep depd : Nat)
    (hDn : ∀ k s, alookup deps k = some s → s.Nodup) :
    ∀ k s, alookup (addDependent deps dep depd) k = some s → s.Nodup := by
  intro k s hs
  cases hl : alookup deps dep with
  | none =>
    simp only [addDependent, hl] at hs
    rw [alookup_append] at hs
    cases h1 : alookup deps k with
    | some v =>
      simp only [h1] at hs
      rw [Option.some_inj] at hs
      exact hs ▸ hDn k v h1
    | none =>
      simp only [h1] at hs
      by_cases hk : dep = k
      · subst hk
        rw [alookup_cons_self, Option.some_inj] at hs
        subst hs
        exact List.nodup_singleton _
      · rw [alookup_cons_ne _ _ hk, alookup_nil] at hs
        exact Option.noConfusion hs
  | some s0 =>
    by_cases hmem : depd ∈ s0
    · simp only [addDependent, hl, if_pos hmem] at hs
      exact hDn k s hs
    · simp only [addDependent, hl, if_neg hmem] at hs
      by_cases hk : dep = k
      · subst hk
        rw [alookup_aset_self, Option.some_inj] at hs
        subst hs
        rw [List.nodup_append]
        exact ⟨hDn dep s0 hl, List.nodup_singleton _,
          fun a ha hb => hmem ((List.mem_singleton.mp hb) ▸ ha)⟩
      · rw [alookup_aset_ne _ _ _ _ hk] at hs
        exact hDn k s hs

theorem addDependent_edge (deps : Deps) (dep depd : Nat) :
    ∀ k d, edgeIn (addDependent deps dep depd) k d ↔
      (k = dep ∧ d = depd) ∨ edgeIn deps k d := by
  intro k d
  cases hl : alookup deps dep with
  | none =>
    simp only [addDependent, hl]
    constructor
    · rintro ⟨s, hs, hd⟩
      rw [alookup_append] at hs
      cases h1 : alookup deps k with
      | some v =>
        simp only [h1] at hs
        rw [Option.some_inj] at hs
        exact Or.inr ⟨s, by rw [h1]; exact congrArg some hs, hd⟩
      | none =>
        simp only [h1] at hs
        by_cases hk : dep = k
        · subst hk
          rw [alookup_cons_self, Option.some_inj] at hs
          subst hs
          exact Or.inl ⟨rfl, List.mem_singleton.mp hd⟩
        · rw [alookup_cons_ne _ _ hk, alookup_nil] at hs
          exact Option.noConfusion hs
    · rintro (⟨hk, hd2⟩ | ⟨s, hs, hd⟩)
      · subst hk
        subst hd2
        refine ⟨[d], ?_, List.mem_singleton.mpr rfl⟩
        rw [alookup_append]
        simp only [hl]
        exact alookup_cons_self k [d] []
      · refine ⟨s, ?_, hd⟩
        rw [alookup_append]
        simp only [hs]
  | some s0 =>
    by_cases hmem : depd ∈ s0
    · simp only [addDependent, hl, if_pos hmem]
      constructor
      · exact Or.inr
      · rintro (⟨hk, hd2⟩ | he)
        · subst hk
          subst hd2
          exact ⟨s0, hl, hmem⟩
        · exact he
    · simp only [addDependent, hl, if_neg hmem]
      constructor
      · rintro ⟨s, hs, hd⟩
        by_cases hk : dep = k
        · subst hk
          rw [alookup_aset_self, Option.some_inj] at hs
          subst hs
          rcases List.mem_append.mp hd with h | h
          · exact Or.inr ⟨s0, hl, h⟩
          · exact Or.inl ⟨rfl, List.mem_singleton.mp h⟩
        · rw [alookup_aset_ne _ _ _ _ hk] at hs
          exact Or.inr ⟨s, hs, hd⟩
      · rintro (⟨hk, hd2⟩ | ⟨s, hs, hd⟩)
        · subst hk
          subst hd2
          exact ⟨s0 ++ [d], alookup_aset_self _ _ _,
            List.mem_append.mpr (Or.inr (List.mem_singleton.mpr rfl))⟩
        · by_cases hk : dep = k
          · subst hk
            rw [hl, Option.some_inj] at hs
            subst hs
            exact ⟨s0 ++ [depd], alookup_aset_self _ _ _,
              List.mem_append.mpr (Or.inl hd)⟩
          · exact ⟨s, by rw [alookup_aset_ne _ _ _ _ hk]; exact hs, hd⟩


theorem foldAdd_keys (pid : Nat) :
    ∀ (l : List Nat) (acc : Deps), (acc.map (fun e => e.1)).Nodup →
      ((l.foldl (fun deps dep => addDependent deps dep pid) acc).map
        (fun e => e.1)).Nodup := by
  intro l
  induction l with
  | nil => intro acc h; exact h
  | cons x rest ih =>
    intro acc h
    rw [List.foldl_cons]
    exact ih _ (addDependent_keys_nodup acc x pid h)

theorem foldAdd_entries (pid : Nat) :
    ∀ (l : List Nat) (acc : Deps),
      (∀ k s, alookup acc k = some s → s.Nodup) →
      ∀ k s, alookup (l.foldl (fun deps dep => addDependent deps dep pid) acc)
        k = some s → s.Nodup := by
  intro l
  induction l with
  | nil => intro acc h; exact h
  | cons x rest ih =>
    intro acc h
    rw [List.foldl_cons]
    exact ih _ (addDependent_entries_nodup acc x pid h)

theorem foldAdd_edge (pid : Nat) :
    ∀ (l : List Nat) (acc : Deps) (k d : Nat),
      edgeIn (l.foldl (fun deps dep => addDependent deps dep pid) acc) k d ↔
        (k ∈ l ∧ d = pid) ∨ edgeIn acc k d := by
  intro l
  induction l with
  | nil =>
    intro acc k d
    simp only [List.foldl_nil, List.not_mem_nil, false_and, false_or]
  | cons x rest ih =>
    intro acc k d
    rw [List.foldl_cons, ih, addDependent_edge, List.mem_cons]
    tauto

theorem foldProj_keys :
    ∀ (ps : List Project) (acc : Deps), (acc.map (fun e => e.1)).Nodup →
      ((ps.foldl
          (fun deps p =>
            p.depends.foldl (fun deps dep => addDependent deps dep p.id) deps)
          acc).map (fun e => e.1)).Nodup := by
  intro ps
  induction ps with
  | nil => intro acc h; exact h
  | cons p rest ih =>
    intro acc h
    rw [List.foldl_cons]
    exact ih _ (foldAdd_keys p.id p.depends acc h)

theorem foldProj_entries :
    ∀ (ps : List Project) (acc : Deps),
      (∀ k s, alookup acc k = some s → s.Nodup) →
      ∀ k s, alookup
        (ps.foldl
          (fun deps p =>
            p.depends.foldl (fun deps dep => addDependent deps dep p.id) deps)
          acc) k = some s → s.Nodup := by
  intro ps
  induction ps with
  | nil => intro acc h; exact h
  | cons p rest ih =>
    intro acc h
    rw [List.foldl_cons]
    exact ih _ (foldAdd_entries p.id p.depends acc h)

theorem foldProj_edge :
    ∀ (ps : List Project) (acc : Deps) (k d : Nat),
      edgeIn
        (ps.foldl
          (fun deps p =>
            p.depends.foldl (fun deps dep => addDependent deps dep p.id) deps)
          acc) k d ↔
        (∃ prj ∈ ps, prj.id = d ∧ k ∈ prj.depends) ∨ edgeIn acc k d := by
  intro ps
  induction ps with
  | nil =>
    intro acc k d
    simp only [List.foldl_nil, List.not_mem_nil, false_and, exists_false,
      false_or]
  | cons p rest ih =>
    intro acc k d
    rw [List.foldl_cons, ih, foldAdd_edge]
    constructor
    · rintro (⟨prj, hprj, hid, hdep⟩ | ⟨hk, hd⟩ | he)
      · exact Or.inl ⟨prj, List.mem_cons_of_mem _ hprj, hid, hdep⟩
      · exact Or.inl ⟨p, List.mem_cons_self _ _, hd.symm, hk⟩
      · exact Or.inr he
    · rintro (⟨prj, hprj, hid, hdep⟩ | he)
      · rcases List.mem_cons.mp hprj with heq | hm
        · subst heq
          exact Or.inr (Or.inl ⟨hdep, hid.symm⟩)
        · exact Or.inl ⟨prj, hm, hid, hdep⟩
      · exact Or.inr (Or.inr he)

theorem buildDependents_keys_nodup (projects : List Project) :
    ((buildDependents projects).map (fun e => e.1)).Nodup :=
  foldProj_keys projects [] List.nodup_nil

theorem buildDependents_entries_nodup (projects : List Project) :
    ∀ k s, alookup (buildDependents projects) k = some s → s.Nodup :=
  foldProj_entries projects []
    (fun k s h => absurd h (by rw [alookup_nil]; exact Option.noConfusion))

theorem buildDependents_edge (projects : List Project) (k d : Nat) :
    edgeIn (buildDependents projects) k d ↔
      ∃ prj ∈ projects, prj.id = d ∧ k ∈ prj.depends := by
  rw [buildDependents, foldProj_edge]
  constructor
  · rintro (h | ⟨s, hs, _⟩)
    · exact h
    · rw [alookup_nil] at hs
      exact Option.noConfusion hs
  · exact Or.inl

theorem mem_initQueue_iff (projects : List Project) (incrs0 : Nat → Size)
    (e : Nat × Size) :
    e ∈ initQueue projects incrs0 ↔
      ∃ p ∈ projects, p.depends = [] ∧ e = (p.id, incrs0 p.id) := by
  rw [initQueue, List.mem_filterMap]
  constructor
  · rintro ⟨p, hp, hpe⟩
    by_cases hd : p.depends = []
    · rw [if_pos hd, Option.some_inj] at hpe
      exact ⟨p, hp, hd, hpe.symm⟩
    · rw [if_neg hd] at hpe
      exact Option.noConfusion hpe
  · rintro ⟨p, hp, hd, he⟩
    exact ⟨p, hp, by rw [if_pos hd, he]⟩


/-- An edge of the original manifest graph: some declared project with id `d`
lists `p` among its `depends`. -/
def OrigEdge (projects : List Project) (p d : Nat) : Prop :=
  ∃ prj ∈ projects, prj.id = d ∧ p ∈ prj.depends

/-- Loop invariant of the Kahn traversal in `consider_deps`: the dependents
map has distinct keys and duplicate-free entries that all come from the
manifest; every queue entry carries the current size of a node with no
remaining incoming edge; every manifest edge is either still stored or
already discharged (the target's size dominates the source's, and the
source's size is final because nothing can reach it any more); and every node
with a remaining outgoing edge is queued or blocked behind an incoming
edge. -/
def Inv (projects : List Project) (deps : Deps) (q : List (Nat × Size))
    (incrs : Nat → Size) : Prop :=
  ((deps.map (fun e => e.1)).Nodup) ∧
  (∀ k ds, alookup deps k = some ds → ds.Nodup) ∧
  (∀ k ds, alookup deps k = some ds → ∀ d ∈ ds, OrigEdge projects k d) ∧
  (∀ e ∈ q, e.2 = incrs e.1 ∧ noIncoming deps e.1 = true) ∧
  (∀ p d, OrigEdge projects p d →
    (∃ ds, alookup deps p = some ds ∧ d ∈ ds) ∨
    (Size.le (incrs p) (incrs d) ∧ noIncoming deps p = true)) ∧
  (∀ p ds, alookup deps p = some ds → ds ≠ [] →
    (∃ s, (p, s) ∈ q) ∨ noIncoming deps p = false)

theorem exists_of_noIncoming_false (deps : Deps) (d : Nat)
    (hk : (deps.map (fun e => e.1)).Nodup)
    (h : noIncoming deps d = false) :
    ∃ k s, alookup deps k = some s ∧ d ∈ s := by
  by_contra hc
  push_neg at hc
  have := noIncoming_of_forall deps d hk (fun k s hs => hc k s hs)
  rw [this] at h
  exact Bool.noConfusion h

theorem noIncoming_false_of_mem (deps : Deps) (d k : Nat) (s : List Nat)
    (hs : alookup deps k = some s) (hd : d ∈ s) :
    noIncoming deps d = false := by
  cases h : noIncoming deps d with
  | false => rfl
  | true => exact absurd hd (forall_of_noIncoming deps d h k s hs)

theorem noIncoming_of_char (deps deps' : Deps) (id x : Nat)
    (hk' : (deps'.map (fun e => e.1)).Nodup)
    (hid : alookup deps' id = some [])
    (hoth : ∀ k, k ≠ id → alookup deps' k = alookup deps k)
    (h : noIncoming deps x = true) : noIncoming deps' x = true := by
  apply noIncoming_of_forall _ _ hk'
  intro k s hs
  by_cases hkid : k = id
  · subst hkid
    rw [hid, Option.some_inj] at hs
    subst hs
    exact List.not_mem_nil x
  · rw [hoth k hkid] at hs
    exact forall_of_noIncoming deps x h k s hs

theorem processDepds_mono (id : Nat) (sz : Size) (ds : List Nat) (deps : Deps)
    (q : List (Nat × Size)) (incrs : Nat → Size)
    (hl : alookup deps id = some ds) (hnd : ds.Nodup)
    (hK : (deps.map (fun e => e.1)).Nodup) :
    ∀ x, Size.le (incrs x) ((processDepds id sz ds deps q incrs).2.2 x) := by
  obtain ⟨_, _, _, kd, _⟩ := processDepds_char id sz ds deps q incrs hl hnd hK
  intro x
  rw [kd]
  by_cases hx : x ∈ ds
  · simp only [hx, if_true]
    exact Size.le_max_left _ _
  · simp only [hx, if_false]
    exact Size.le_refl _


theorem inv_step (projects : List Project) (rank : Nat → Nat)
    (HA : ∀ prj ∈ projects, ∀ dep ∈ prj.depends, rank dep < rank prj.id)
    (id : Nat) (sz : Size) (ds : List Nat) (deps : Deps)
    (rest : List (Nat × Size)) (incrs : Nat → Size)
    (hl : alookup deps id = some ds)
    (hinv : Inv projects deps ((id, sz) :: rest) incrs) :
    Inv projects (processDepds id sz ds deps rest incrs).1
      (processDepds id sz ds deps rest incrs).2.1
      (processDepds id sz ds deps rest incrs).2.2 := by
  obtain ⟨hK, hDn, hD, hQ, hE, hP⟩ := hinv
  have hhead := hQ (id, sz) (List.mem_cons_self _ _)
  have hsz : sz = incrs id := hhead.1
  have hniid : noIncoming deps id = true := hhead.2
  have hnodup : ds.Nodup := hDn id ds hl
  obtain ⟨ka, kb, kc, kd, ke⟩ :=
    processDepds_char id sz ds deps rest incrs hl hnodup hK
  set r := processDepds id sz ds deps rest incrs with hrdef
  have hidds : id ∉ ds := by
    intro hmem
    obtain ⟨prj, hprj, hpid, hpdep⟩ := hD id ds hl id hmem
    have := HA prj hprj id hpdep
    rw [hpid] at this
    exact Nat.lt_irrefl _ this
  have hkeys' : (r.1.map (fun e => e.1)).Nodup := by rw [ka]; exact hK
  have hincr : ∀ x, r.2.2 x =
      if x ∈ ds then Size.max (incrs x) sz else incrs x := by
    intro x
    rw [kd]
  have hincr_id : r.2.2 id = incrs id := by
    rw [hincr]
    simp [hidds]
  have hincr_mono : ∀ x, Size.le (incrs x) (r.2.2 x) :=
    processDepds_mono id sz ds deps rest incrs hl hnodup hK
  have hstable : ∀ x, noIncoming deps x = true → r.2.2 x = incrs x := by
    intro x hx
    have hxds : x ∉ ds := forall_of_noIncoming deps x hx id ds hl
    rw [hincr]
    simp [hxds]
  refine ⟨hkeys', ?_, ?_, ?_, ?_, ?_⟩
  · intro k ds' hk
    by_cases hkid : k = id
    · subst hkid
      rw [kb, Option.some_inj] at hk
      subst hk
      exact List.nodup_nil
    · rw [kc k hkid] at hk
      exact hDn k ds' hk
  · intro k ds' hk d hd
    by_cases hkid : k = id
    · subst hkid
      rw [kb, Option.some_inj] at hk
      subst hk
      exact absurd hd (List.not_mem_nil d)
    · rw [kc k hkid] at hk
      exact hD k ds' hk d hd
  · intro e he
    rw [ke] at he
    rcases List.mem_append.mp he with hr | hnew
    · have hold := hQ e (List.mem_cons_of_mem _ hr)
      exact ⟨by rw [hstable e.1 hold.2]; exact hold.1,
        noIncoming_of_char deps r.1 id e.1 hkeys' kb kc hold.2⟩
    · obtain ⟨d, hdf, hde⟩ := List.mem_map.mp hnew
      have hdfil := List.mem_filter.mp hdf
      subst hde
      exact ⟨rfl, hdfil.2⟩
  · intro p d hpd
    rcases hE p d hpd with ⟨ds', hds', hmem⟩ | ⟨hle, hst⟩
    · by_cases hpid : p = id
      · subst hpid
        rw [hl, Option.some_inj] at hds'
        subst hds'
        right
        refine ⟨?_, noIncoming_of_char deps r.1 p p hkeys' kb kc hniid⟩
        rw [hincr_id, hincr d]
        simp only [hmem, if_true]
        rw [hsz]
        exact Size.le_max_right _ _
      · left
        exact ⟨ds', by rw [kc p hpid]; exact hds', hmem⟩
    · right
      refine ⟨?_, noIncoming_of_char deps r.1 id p hkeys' kb kc hst⟩
      rw [hstable p hst]
      exact Size.le_trans hle (hincr_mono d)
  · intro p ds' hk hne
    by_cases hpid : p = id
    · subst hpid
      rw [kb, Option.some_inj] at hk
      exact absurd hk.symm hne
    · rw [kc p hpid] at hk
      rcases hP p ds' hk hne with ⟨s, hs⟩ | hni
      · rcases List.mem_cons.mp hs with heq | hr
        · exact absurd (congrArg Prod.fst heq) hpid
        · exact Or.inl ⟨s, by rw [ke]; exact List.mem_append.mpr (Or.inl hr)⟩
      · obtain ⟨k, s, hks, hps⟩ := exists_of_noIncoming_false deps p hK hni
        by_cases hkid : k = id
        · subst hkid
          rw [hl, Option.some_inj] at hks
          subst hks
          cases hnr : noIncoming r.1 p with
          | true =>
            left
            refine ⟨r.2.2 p, ?_⟩
            rw [ke]
            exact List.mem_append.mpr (Or.inr (List.mem_map.mpr
              ⟨p, List.mem_filter.mpr ⟨hps, hnr⟩, rfl⟩))
          | false => exact Or.inr rfl
        · right
          exact noIncoming_false_of_mem r.1 p k s
            (by rw [kc k hkid]; exact hks) hps


theorem inv_pop_none (projects : List Project) (deps : Deps) (id : Nat)
    (sz : Size) (rest : List (Nat × Size)) (incrs : Nat → Size)
    (hl : alookup deps id = Option.none)
    (h : Inv projects deps ((id, sz) :: rest) incrs) :
    Inv projects deps rest incrs := by
  obtain ⟨hK, hDn, hD, hQ, hE, hP⟩ := h
  refine ⟨hK, hDn, hD, fun e he => hQ e (List.mem_cons_of_mem _ he), hE, ?_⟩
  intro p ds hk hne
  rcases hP p ds hk hne with ⟨s, hs⟩ | hni
  · rcases List.mem_cons.mp hs with heq | hr
    · have hp : p = id := congrArg Prod.fst heq
      rw [hp, hl] at hk
      exact Option.noConfusion hk
    · exact Or.inl ⟨s, hr⟩
  · exact Or.inr hni

theorem inv_init (projects : List Project) (incrs0 : Nat → Size)
    (HN : (projects.map (fun p => p.id)).Nodup)
    (HE : ∀ prj ∈ projects, ∀ dep ∈ prj.depends,
      ∃ p2 ∈ projects, p2.id = dep) :
    Inv projects (buildDependents projects) (initQueue projects incrs0)
      incrs0 := by
  have hK := buildDependents_keys_nodup projects
  have hDn := buildDependents_entries_nodup projects
  have hinj : ∀ a ∈ projects, ∀ b ∈ projects, Project.id a = Project.id b →
      a = b := fun a ha b hb hab => List.inj_on_of_nodup_map HN ha hb hab
  refine ⟨hK, hDn, ?_, ?_, ?_, ?_⟩
  · intro k ds hk d hd
    exact (buildDependents_edge projects k d).mp ⟨ds, hk, hd⟩
  · intro e he
    obtain ⟨p, hp, hdep, hee⟩ := (mem_initQueue_iff projects incrs0 e).mp he
    subst hee
    refine ⟨rfl, ?_⟩
    apply noIncoming_of_forall _ _ hK
    intro k s hs hmem
    obtain ⟨prj, hprj, hpid, hpdep⟩ :=
      (buildDependents_edge projects k p.id).mp ⟨s, hs, hmem⟩
    have hpe : prj = p := hinj prj hprj p hp hpid
    subst hpe
    rw [hdep] at hpdep
    exact List.not_mem_nil k hpdep
  · intro p d hpd
    exact Or.inl ((buildDependents_edge projects p d).mpr hpd)
  · intro p ds hk hne
    obtain ⟨d, hd⟩ := List.exists_mem_of_ne_nil ds hne
    obtain ⟨prj, hprj, hpid, hpdep⟩ :=
      (buildDependents_edge projects p d).mp ⟨ds, hk, hd⟩
    obtain ⟨pp, hpp, hppid⟩ := HE prj hprj p hpdep
    by_cases hdeps : pp.depends = []
    · left
      refine ⟨incrs0 p, (mem_initQueue_iff projects incrs0 _).mpr
        ⟨pp, hpp, hdeps, by rw [hppid]⟩⟩
    · right
      obtain ⟨k2, hk2⟩ := List.exists_mem_of_ne_nil pp.depends hdeps
      obtain ⟨s2, hs2, hps2⟩ :=
        (buildDependents_edge projects k2 p).mpr ⟨pp, hpp, hppid, hk2⟩
      exact noIncoming_false_of_mem _ p k2 s2 hs2 hps2

theorem runDeps_reaches (projects : List Project) (rank : Nat → Nat)
    (HA : ∀ prj ∈ projects, ∀ dep ∈ prj.depends, rank dep < rank prj.id) :
    ∀ (n : Nat) (deps : Deps) (q : List (Nat × Size)) (incrs : Nat → Size),
      2 * totalEdges deps + q.length ≤ n →
      Inv projects deps q incrs →
      (∀ x, Size.le (incrs x) (runDeps deps q incrs x)) ∧
      ∃ depsF, Inv projects depsF [] (runDeps deps q incrs) := by
  intro n
  induction n with
  | zero =>
    intro deps q incrs hm hinv
    have hq : q = [] := List.length_eq_zero.mp (by omega)
    subst hq
    rw [runDeps_nil]
    exact ⟨fun x => Size.le_refl _, deps, hinv⟩
  | succ n ih =>
    intro deps q incrs hm hinv
    cases q with
    | nil =>
      rw [runDeps_nil]
      exact ⟨fun x => Size.le_refl _, deps, hinv⟩
    | cons e rest =>
      obtain ⟨id, sz⟩ := e
      have hsz : sz = incrs id :=
        (hinv.2.2.2.1 (id, sz) (List.mem_cons_self _ _)).1
      have hq0 : updSize incrs id (Size.max (incrs id) sz) = incrs := by
        funext x
        by_cases hx : x = id
        · subst hx
          simp [updSize, hsz, Size.max_idem]
        · simp [updSize, hx]
      cases hl : alookup deps id with
      | none =>
        rw [runDeps_cons_none deps id sz rest incrs hl, hq0]
        have hm2 : 2 * totalEdges deps + rest.length ≤ n := by
          simp only [List.length_cons] at hm
          omega
        exact ih deps rest incrs hm2
          (inv_pop_none projects deps id sz rest incrs hl hinv)
      | some ds =>
        rw [runDeps_cons_some deps id sz rest incrs ds hl, hq0]
        have hstep := inv_step projects rank HA id sz ds deps rest incrs hl
          hinv
        have hm2 : 2 * totalEdges (processDepds id sz ds deps rest incrs).1 +
            (processDepds id sz ds deps rest incrs).2.1.length ≤ n := by
          have h1 := edges_processDepds id sz ds deps rest incrs hl
          have h2 := qlen_processDepds id sz ds deps rest incrs
          simp only [List.length_cons] at hm
          omega
        obtain ⟨hmono, hfin⟩ := ih _ _ _ hm2 hstep
        refine ⟨?_, hfin⟩
        intro x
        exact Size.le_trans
          (processDepds_mono id sz ds deps rest incrs hl
            (hinv.2.1 id ds hl) hinv.1 x)
          (hmono x)

theorem no_pending_edges (projects : List Project) (rank : Nat → Nat)
    (HA : ∀ prj ∈ projects, ∀ dep ∈ prj.depends, rank dep < rank prj.id)
    (depsF : Deps) (incrsF : Nat → Size)
    (hinv : Inv projects depsF [] incrsF) :
    ∀ k ds, alookup depsF k = some ds → ds = [] := by
  obtain ⟨hK, hDn, hD, hQ, hE, hP⟩ := hinv
  have hdesc : ∀ k ds, alookup depsF k = some ds → ds ≠ [] →
      ∃ k2 ds2, alookup depsF k2 = some ds2 ∧ ds2 ≠ [] ∧
        rank k2 < rank k := by
    intro k ds hk hne
    rcases hP k ds hk hne with ⟨s, hs⟩ | hni
    · exact absurd hs (List.not_mem_nil _)
    · obtain ⟨k2, s2, hk2, hks2⟩ := exists_of_noIncoming_false depsF k hK hni
      obtain ⟨prj, hprj, hpid, hpdep⟩ := hD k2 s2 hk2 k hks2
      refine ⟨k2, s2, hk2, fun h => ?_, ?_⟩
      · rw [h] at hks2
        exact List.not_mem_nil k hks2
      · have hlt := HA prj hprj k2 hpdep
        rw [hpid] at hlt
        exact hlt
  have main : ∀ n k, rank k ≤ n → ∀ ds, alookup depsF k = some ds →
      ds = [] := by
    intro n
    induction n with
    | zero =>
      intro k hr ds hk
      by_contra hne
      obtain ⟨k2, ds2, _, _, hlt⟩ := hdesc k ds hk hne
      omega
    | succ n ihn =>
      intro k hr ds hk
      by_contra hne
      obtain ⟨k2, ds2, hk2, hne2, hlt⟩ := hdesc k ds hk hne
      exact hne2 (ihn k2 (by omega) ds2 hk2)
  intro k ds hk
  exact main (rank k) k (Nat.le_refl _) ds hk


/-- C4: after `PlanConsider::consider_deps`, under a validated manifest
(distinct project ids, an acyclic `depends` graph - witnessed by a rank
function that drops along every edge - and every listed dependency naming an
existing project), the planned increments propagate: no project's size
decreases, every project's final size dominates the final size of each of
its dependencies, and along any dependency chain the final size of the last
project dominates the initial size of every project on the chain (the
maximum accumulates along chains). -/
theorem claim_C4 (projects : List Project) (incrs0 : Nat → Size)
    (rank : Nat → Nat)
    (HN : (projects.map (fun p => p.id)).Nodup)
    (HA : ∀ prj ∈ projects, ∀ dep ∈ prj.depends, rank dep < rank prj.id)
    (HE : ∀ prj ∈ projects, ∀ dep ∈ prj.depends,
      ∃ p2 ∈ projects, p2.id = dep) :
    (∀ x, Size.le (incrs0 x) (considerDeps projects incrs0 x)) ∧
    (∀ prj ∈ projects, ∀ p ∈ prj.depends,
      Size.le (considerDeps projects incrs0 p)
        (considerDeps projects incrs0 prj.id)) ∧
    (∀ c : List Nat, c.Chain' (fun a b => OrigEdge projects a b) →
      ∀ a ∈ c, ∀ b, c.getLast? = some b →
      Size.le (incrs0 a) (considerDeps projects incrs0 b)) := by
  have hinv0 := inv_init projects incrs0 HN HE
  obtain ⟨hmono, depsF, hinvF⟩ := runDeps_reaches projects rank HA
    (2 * totalEdges (buildDependents projects) +
      (initQueue projects incrs0).length)
    (buildDependents projects) (initQueue projects incrs0) incrs0
    (Nat.le_refl _) hinv0
  have hC : considerDeps projects incrs0 =
      runDeps (buildDependents projects) (initQueue projects incrs0)
        incrs0 := rfl
  have hnp := no_pending_edges projects rank HA depsF _ hinvF
  have hedge : ∀ p d, OrigEdge projects p d →
      Size.le (considerDeps projects incrs0 p)
        (considerDeps projects incrs0 d) := by
    intro p d hpd
    rcases hinvF.2.2.2.2.1 p d hpd with ⟨ds, hds, hmem⟩ | ⟨hle, _⟩
    · rw [hnp p ds hds] at hmem
      exact absurd hmem (List.not_mem_nil d)
    · rw [hC]
      exact hle
  have hmono2 : ∀ x, Size.le (incrs0 x) (considerDeps projects incrs0 x) := by
    intro x
    rw [hC]
    exact hmono x
  refine ⟨hmono2, ?_, ?_⟩
  · intro prj hprj p hp
    exact hedge p prj.id ⟨prj, hprj, rfl, hp⟩
  · have hchain : ∀ c : List Nat,
        c.Chain' (fun a b => OrigEdge projects a b) →
        ∀ a ∈ c, ∀ b, c.getLast? = some b →
        Size.le (considerDeps projects incrs0 a)
          (considerDeps projects incrs0 b) := by
      intro c
      induction c with
      | nil => intro _ a ha; exact absurd ha (List.not_mem_nil a)
      | cons x c2 ihc =>
        intro hch a ha b hb
        cases c2 with
        | nil =>
          have hax : a = x := List.mem_singleton.mp ha
          simp only [List.getLast?_singleton, Option.some_inj] at hb
          subst hax
          subst hb
          exact Size.le_refl _
        | cons y c3 =>
          have hrel : OrigEdge projects x y := (List.chain'_cons.mp hch).1
          have hch2 := (List.chain'_cons.mp hch).2
          rw [List.getLast?_cons_cons] at hb
          rcases List.mem_cons.mp ha with hax | ha2
          · subst hax
            exact Size.le_trans (hedge a y hrel)
              (ihc hch2 y (List.mem_cons_self _ _) b hb)
          · exact ihc hch2 a ha2 b hb
    intro c hch a ha b hb
    exact Size.le_trans (hmono2 a) (hchain c hch a ha b hb)


/-- A dependency-free project used in the C4 witness. -/
def projC4a : Project :=
  { name := "lib", id := 1, root := Option.none, includes := ["**"],
    excludes := [], depends := [], changeLog := Option.none,
    tagPref := Option.none }

/-- A project depending on `projC4a`, used in the C4 witness. -/
def projC4b : Project :=
  { name := "app", id := 2, root := Option.none, includes := ["**"],
    excludes := [], depends := [1], changeLog := Option.none,
    tagPref := Option.none }

/-- C4 (witness): the theorem applied to the two-project manifest
`[projC4a, projC4b]` (where `app` depends on `lib`), with the identity rank
function witnessing acyclicity; all hypotheses hold by evaluation. -/
theorem claim_C4_witness :
    (∀ x, Size.le ((fun _ => Size.minor) x)
      (considerDeps [projC4a, projC4b] (fun _ => Size.minor) x)) ∧
    (∀ prj ∈ [projC4a, projC4b], ∀ p ∈ prj.depends,
      Size.le (considerDeps [projC4a, projC4b] (fun _ => Size.minor) p)
        (considerDeps [projC4a, projC4b] (fun _ => Size.minor) prj.id)) ∧
    (∀ c : List Nat, c.Chain' (fun a b => OrigEdge [projC4a, projC4b] a b) →
      ∀ a ∈ c, ∀ b, c.getLast? = some b →
      Size.le ((fun _ => Size.minor) a)
        (considerDeps [projC4a, projC4b] (fun _ => Size.minor) b)) :=
  claim_C4 [projC4a, projC4b] (fun _ => Size.minor) (fun n => n)
    (by decide) (by decide) (by decide)

end Versio
